import Mathlib

/-!
A shallow embedding of QuadTree.hpp.

`QuadTree<T>` is a class template over an item type `T` with `getX`, `getY`,
`getWidth`, `getHeight` over a coordinate type `U` offering `+`, `-`, `/ 2`, `<`, `>`.
The embedding instantiates `U` with the integers, `/ 2` being C++ integer division
(truncation towards zero, `Int.tdiv`), and `T` with the plain rectangle `Rect`.

A `std::unique_ptr<QuadTree<T>>` is an `Option QuadTree` (`none` is the null pointer);
`std::array<_, 4>` is the four slots `t0 .. t3`; `std::vector<std::unique_ptr<T>>` is a
`List Rect` (every element owns an independent copy, so the list of values is the state).
The `unsigned int` fields are natural numbers: the only arithmetic on them is `_level + 1`
in `split`, which runs under the guard `_level < _maxLevel` and so cannot wrap.

The embedding follows the run-time meaning of the statements. Four places of the source
lean on the item type or do not name what they mean, and are read as follows:
* line 69 reads the member `nRect.x`: taken to be the value `getX()` returns;
* line 96 copies `**it`, the unary `*` of `T` applied to the stored item: taken to be
  the stored item;
* lines 86-87 build the children through `std::make_unique` with the private
  constructor of lines 99-104: taken to build the node that constructor describes;
* line 116 is written `it->reset(nullptr)`, which names a member `reset` of
  `QuadTree<T>` that the class does not have, so `clear()` as written is ill-formed and
  has no behaviour of its own. The definition `clear` below is the repaired statement
  `it.reset(nullptr)`; it serves only to make the class of reachable trees larger, and
  nothing is claimed of the source's `clear()` through it.

A call of `insert` can end in three ways (`Outcome`): it returns, it is left by the
`std::out_of_range` of `std::array::at`, or it dereferences a null pointer.
-/

/-- The item type `T`: an axis-aligned rectangle with integer coordinates. -/
structure Rect where
  x : Int
  y : Int
  width : Int
  height : Int
deriving DecidableEq, Repr

/-- The class `QuadTree<T>`: `_trees` (four slots), `_rects`, `_bounds`, `_level`,
`_maxRect`, `_maxLevel`. -/
inductive QuadTree where
  | mk (t0 t1 t2 t3 : Option QuadTree) (rects : List Rect) (bounds : Rect)
      (level maxRect maxLevel : Nat) : QuadTree
deriving Repr

/-- How a call of `insert` ends. -/
inductive Outcome where
  /-- The call returned; the node is left in state `t`. -/
  | returned (t : QuadTree)
  /-- A `std::out_of_range` thrown by `std::array::at` left the call; the node is left
  in state `t` (what a caller that catches the exception finds). -/
  | threw (t : QuadTree)
  /-- A null `std::unique_ptr` was dereferenced: undefined behaviour, no state. -/
  | undefined
deriving Repr

/-- What can go wrong in the `const` query. -/
inductive Fault where
  | outOfRange
  | nullDeref
deriving DecidableEq, Repr

/-- Lines 60-72: the quadrant of `nRect` in a node with the given `_bounds`, `-1` for none. -/
def findRectanglePosition (bounds nRect : Rect) : Int :=
  let xMid := bounds.x + bounds.width.tdiv 2
  let yMid := bounds.y + bounds.height.tdiv 2
  let isTop : Bool := decide (nRect.y < yMid) && decide (nRect.y + nRect.height < yMid)
  let isBot : Bool := decide (nRect.y > yMid)
  if nRect.x < xMid ∧ nRect.x + nRect.width < xMid then
    (if isTop then 1 else if isBot then 2 else -1)
  else if nRect.x > xMid then
    (if isTop then 0 else if isBot then 3 else -1)
  else -1

namespace QuadTree

def t0 : QuadTree → Option QuadTree
  | mk a _ _ _ _ _ _ _ _ => a

def t1 : QuadTree → Option QuadTree
  | mk _ a _ _ _ _ _ _ _ => a

def t2 : QuadTree → Option QuadTree
  | mk _ _ a _ _ _ _ _ _ => a

def t3 : QuadTree → Option QuadTree
  | mk _ _ _ a _ _ _ _ _ => a

def rects : QuadTree → List Rect
  | mk _ _ _ _ r _ _ _ _ => r

def bounds : QuadTree → Rect
  | mk _ _ _ _ _ b _ _ _ => b

def level : QuadTree → Nat
  | mk _ _ _ _ _ _ l _ _ => l

def maxRect : QuadTree → Nat
  | mk _ _ _ _ _ _ _ m _ => m

def maxLevel : QuadTree → Nat
  | mk _ _ _ _ _ _ _ _ m => m

/-- Lines 99-104, the private constructor: empty slots, empty `_rects`. -/
def constructAt (bounds : Rect) (maxRect maxLevel level : Nat) : QuadTree :=
  mk none none none none [] bounds level maxRect maxLevel

/-- Lines 107-109, the public constructor: a root at level 0. -/
def construct (bounds : Rect) (maxRect maxLevel : Nat) : QuadTree :=
  mk none none none none [] bounds 0 maxRect maxLevel

/-- The test `_trees.at(0).get() != nullptr`. -/
def hasChildren (t : QuadTree) : Bool := t.t0.isSome

/-- The access `_trees.at(i)`: `none` when `std::array::at` throws (the `int` index is
converted to `size_t`, so `-1` and everything else outside `0..3` is out of range),
otherwise the slot, itself `none` when the pointer is null. -/
def treesAt (t : QuadTree) (i : Int) : Option (Option QuadTree) :=
  if i = 0 then some t.t0
  else if i = 1 then some t.t1
  else if i = 2 then some t.t2
  else if i = 3 then some t.t3
  else none

/-- The node with the object behind `_trees.at(i)` replaced by `c`. -/
def setTree : QuadTree → Int → QuadTree → QuadTree
  | mk a0 a1 a2 a3 r b l m ml, i, c =>
    if i = 0 then mk (some c) a1 a2 a3 r b l m ml
    else if i = 1 then mk a0 (some c) a2 a3 r b l m ml
    else if i = 2 then mk a0 a1 (some c) a3 r b l m ml
    else if i = 3 then mk a0 a1 a2 (some c) r b l m ml
    else mk a0 a1 a2 a3 r b l m ml

/-- The node with `_rects` replaced. -/
def withRects : QuadTree → List Rect → QuadTree
  | mk a0 a1 a2 a3 _ b l m ml, r => mk a0 a1 a2 a3 r b l m ml

/-- Lines 74-88: all four slots are overwritten with fresh nodes one level down. -/
def split : QuadTree → QuadTree
  | mk _ _ _ _ r b l m ml =>
    let divHeight := b.height.tdiv 2
    let divWidth := b.width.tdiv 2
    let x := b.x
    let y := b.y
    mk (some (constructAt ⟨x + divWidth, y, divWidth, divHeight⟩ m ml (l + 1)))
       (some (constructAt ⟨x, y, divWidth, divHeight⟩ m ml (l + 1)))
       (some (constructAt ⟨x, y + divHeight, divWidth, divHeight⟩ m ml (l + 1)))
       (some (constructAt ⟨x + divWidth, y + divHeight, divWidth, divHeight⟩ m ml (l + 1)))
       r b l m ml

/-- Lines 133-141, the loop of `insert`, with `ins` the recursive `insert`. The vector
`_rects` is `kept ++ rest` with `kept` the elements before position `i`; the slots are
those of `t`. `i++` moves the head of `rest` to `kept`; otherwise `*_rects.at(i)` is
inserted into `_trees.at(index)` and erased. The index is that of `nRect`, as on
line 134, in every round. -/
def rescan (ins : QuadTree → Rect → Option Outcome) (nRect : Rect) :
    QuadTree → List Rect → List Rect → Option Outcome
  | t, kept, [] => some (.returned (t.withRects kept))
  | t, kept, r :: rest =>
    let index := findRectanglePosition t.bounds nRect
    if index = -1 then rescan ins nRect t (kept ++ [r]) rest
    else
      match t.treesAt index with
      | none => some (.threw (t.withRects (kept ++ r :: rest)))
      | some none => some .undefined
      | some (some c) =>
        match ins c r with
        | none => none
        | some (.returned c') => rescan ins nRect (t.setTree index c') kept rest
        | some (.threw c') => some (.threw ((t.setTree index c').withRects (kept ++ r :: rest)))
        | some .undefined => some .undefined

/-- Lines 121-142, `insert`, with a bound on the depth of the recursion into children:
`none` only when the bound is used up. On line 125 the index is `-1`, so
`_trees.at(index)` throws before anything is changed. -/
def insertAux : Nat → QuadTree → Rect → Option Outcome
  | 0, _, _ => none
  | fuel + 1, t, nRect =>
    if t.hasChildren ∧ findRectanglePosition t.bounds nRect = -1 then
      some (.threw t)
    else
      let t1 := t.withRects (t.rects ++ [nRect])
      let t2 := if t1.maxRect ≤ t1.rects.length ∧ t1.level < t1.maxLevel ∧ ¬ t1.hasChildren
                then t1.split else t1
      rescan (insertAux fuel) nRect t2 [] t2.rects

/-- A bound on the depth of the recursion of `insert` below a node: a node without
split can still grow `_maxLevel - _level` levels of children. -/
def depthBound : QuadTree → Nat
  | mk a0 a1 a2 a3 _ _ l _ ml =>
    1 + max (ml - l)
      (max (max (match a0 with | none => 0 | some c => depthBound c)
                (match a1 with | none => 0 | some c => depthBound c))
           (max (match a2 with | none => 0 | some c => depthBound c)
                (match a3 with | none => 0 | some c => depthBound c)))

/-- Lines 121-142: `insert`, run with the recursion bound of the tree it is called on
(enough for every tree, see `insertAux_total`). -/
def insert (t : QuadTree) (nRect : Rect) : Option Outcome :=
  insertAux t.depthBound t nRect

/-- A caller inserting the items of a list in order, stopping at the first call that
does not return. -/
def insertAll : QuadTree → List Rect → Option Outcome
  | t, [] => some (.returned t)
  | t, r :: rs =>
    match insert t r with
    | some (.returned t') => insertAll t' rs
    | o => o

/-- Lines 90-97: the recursive query; `rectangles` is the output vector. -/
def _getPossibleCollisions : QuadTree → List Rect → Rect → Except Fault (List Rect)
  | mk a0 a1 a2 a3 r b _ _ _, rectangles, rect =>
    let index := findRectanglePosition b rect
    if index ≠ -1 ∧ a0.isSome then
      let below : Except Fault (List Rect) :=
        if index = 0 then
          (match a0 with
           | none => .error .nullDeref
           | some c => _getPossibleCollisions c rectangles rect)
        else if index = 1 then
          (match a1 with
           | none => .error .nullDeref
           | some c => _getPossibleCollisions c rectangles rect)
        else if index = 2 then
          (match a2 with
           | none => .error .nullDeref
           | some c => _getPossibleCollisions c rectangles rect)
        else if index = 3 then
          (match a3 with
           | none => .error .nullDeref
           | some c => _getPossibleCollisions c rectangles rect)
        else .error .outOfRange
      match below with
      | .error e => .error e
      | .ok out => .ok (out ++ r)
    else .ok (rectangles ++ r)

/-- Lines 144-148: the public query. -/
def getPossibleCollisions (t : QuadTree) (rectangles : List Rect) (rect : Rect)
    (clear : Bool) : Except Fault (List Rect) :=
  _getPossibleCollisions t (if clear then [] else rectangles) rect

/-- Lines 111-119 with line 116 repaired to `it.reset(nullptr)`: the vector is emptied,
and every occupied slot has its node cleared and is then reset, which leaves all four
slots null whatever the nodes behind them held. This is not the source as written:
there line 116 is `it->reset(nullptr)`, a call of a member `QuadTree<T>` does not have,
and `clear()` cannot be instantiated. The definition is used only in `Reachable` and
`Built`, where it adds trees. -/
def clear : QuadTree → QuadTree
  | mk _ _ _ _ _ b l m ml => mk none none none none [] b l m ml

/-- Every item stored in the tree: those of the node, then those of the four subtrees. -/
def allItems : QuadTree → List Rect
  | mk a0 a1 a2 a3 r _ _ _ _ =>
    r ++ ((match a0 with | none => [] | some c => allItems c)
      ++ ((match a1 with | none => [] | some c => allItems c)
      ++ ((match a2 with | none => [] | some c => allItems c)
      ++ (match a3 with | none => [] | some c => allItems c))))

/-- Every node has all four slots occupied or all four null. -/
def allOrNone : QuadTree → Bool
  | mk a0 a1 a2 a3 _ _ _ _ _ =>
    ((a0.isSome && a1.isSome && a2.isSome && a3.isSome)
      || (a0.isNone && a1.isNone && a2.isNone && a3.isNone))
    && (match a0 with | none => true | some c => allOrNone c)
    && (match a1 with | none => true | some c => allOrNone c)
    && (match a2 with | none => true | some c => allOrNone c)
    && (match a3 with | none => true | some c => allOrNone c)

/-- No node lies deeper than its `_maxLevel`, and every child is one level below its
parent with the parent's `_maxRect` and `_maxLevel`. -/
def levelInv : QuadTree → Bool
  | mk a0 a1 a2 a3 _ _ l m ml =>
    decide (l ≤ ml)
    && (match a0 with
        | none => true
        | some c => decide (c.level = l + 1) && decide (c.maxRect = m)
            && decide (c.maxLevel = ml) && levelInv c)
    && (match a1 with
        | none => true
        | some c => decide (c.level = l + 1) && decide (c.maxRect = m)
            && decide (c.maxLevel = ml) && levelInv c)
    && (match a2 with
        | none => true
        | some c => decide (c.level = l + 1) && decide (c.maxRect = m)
            && decide (c.maxLevel = ml) && levelInv c)
    && (match a3 with
        | none => true
        | some c => decide (c.level = l + 1) && decide (c.maxRect = m)
            && decide (c.maxLevel = ml) && levelInv c)

/-- The trees a program can hold: a constructed root, and what `insert` and `clear`
leave behind, also when `insert` is left by a `std::out_of_range` that the caller
catches. -/
inductive Reachable : QuadTree → Prop where
  | construct (bounds : Rect) (maxRect maxLevel : Nat) :
      Reachable (construct bounds maxRect maxLevel)
  | insert {t t' : QuadTree} (nRect : Rect) :
      Reachable t → insert t nRect = some (.returned t') → Reachable t'
  | insertThrew {t t' : QuadTree} (nRect : Rect) :
      Reachable t → insert t nRect = some (.threw t') → Reachable t'
  | clear {t : QuadTree} : Reachable t → Reachable (clear t)

end QuadTree

namespace QuadTree

/-- What `insert` never changes in the node it is called on, and what it keeps. -/
def Kept (t t' : QuadTree) : Prop :=
  t'.level = t.level ∧ t'.maxRect = t.maxRect ∧ t'.maxLevel = t.maxLevel
    ∧ t'.bounds = t.bounds
    ∧ (t.allOrNone = true → t'.allOrNone = true)
    ∧ (t.levelInv = true → t'.levelInv = true)
    ∧ t'.depthBound ≤ t.depthBound

/-- A relation between the node before and after that every step of `insert` respects. -/
structure InsertStable (R : QuadTree → QuadTree → Prop) : Prop where
  refl : ∀ t, R t t
  trans : ∀ a b c, R a b → R b c → R a c
  withRects : ∀ t r, R t (t.withRects r)
  split : ∀ t, t.hasChildren = false → t.level < t.maxLevel → R t t.split
  setTree : ∀ t i c c', t.treesAt i = some (some c) → R c c' → R t (t.setTree i c')

end QuadTree

/-- The relation holds between a node and the state an outcome leaves it in. -/
def Outcome.Rel (R : QuadTree → QuadTree → Prop) (t : QuadTree) : Outcome → Prop
  | .returned t' => R t t'
  | .threw t' => R t t'
  | .undefined => True

namespace QuadTree

/-- The items stored below a node: those of its four subtrees. -/
def childItems (t : QuadTree) : List Rect :=
  t.t0.elim [] allItems ++ (t.t1.elim [] allItems
    ++ (t.t2.elim [] allItems ++ t.t3.elim [] allItems))

end QuadTree

/-- Two rectangles overlap: they have a region of positive area in common. -/
def Rect.overlaps (a b : Rect) : Bool :=
  decide (a.x < b.x + b.width) && decide (b.x < a.x + a.width)
    && decide (a.y < b.y + b.height) && decide (b.y < a.y + a.height)

/-- The rectangle `r` lies fully inside `bounds`. -/
def Rect.inside (r bounds : Rect) : Bool :=
  decide (bounds.x ≤ r.x) && decide (r.x + r.width ≤ bounds.x + bounds.width)
    && decide (bounds.y ≤ r.y) && decide (r.y + r.height ≤ bounds.y + bounds.height)

namespace QuadTree

/-- The query through one slot: a null slot is dereferenced, an occupied one is queried. -/
def slotQuery (out : List Rect) (rect : Rect) : Option QuadTree → Except Fault (List Rect)
  | none => .error .nullDeref
  | some c => c._getPossibleCollisions out rect

/-- The item `r` is held by a node on the descent path of `rect`: the node itself, or,
where the node has children and `rect` maps to a quadrant, the path below that child. -/
inductive OnQueryPath (rect : Rect) : QuadTree → Rect → Prop where
  | atNode {t : QuadTree} {r : Rect} : r ∈ t.rects → OnQueryPath rect t r
  | inChild {t c : QuadTree} {r : Rect} :
      t.hasChildren = true → findRectanglePosition t.bounds rect ≠ -1 →
      t.treesAt (findRectanglePosition t.bounds rect) = some (some c) →
      OnQueryPath rect c r → OnQueryPath rect t r

end QuadTree

/-- The point `(px, py)` of the plane lies in the closed region of `r`. -/
def Rect.covers (r : Rect) (px py : ℚ) : Prop :=
  (r.x : ℚ) ≤ px ∧ px ≤ (r.x : ℚ) + r.width ∧ (r.y : ℚ) ≤ py ∧ py ≤ (r.y : ℚ) + r.height

/-- The point `(px, py)` of the plane lies strictly inside `r`. -/
def Rect.interior (r : Rect) (px py : ℚ) : Prop :=
  (r.x : ℚ) < px ∧ px < (r.x : ℚ) + r.width ∧ (r.y : ℚ) < py ∧ py < (r.y : ℚ) + r.height

instance (r : Rect) (px py : ℚ) : Decidable (r.covers px py) := by
  unfold Rect.covers; infer_instance

instance (r : Rect) (px py : ℚ) : Decidable (r.interior px py) := by
  unfold Rect.interior; infer_instance

namespace QuadTree

/-- The `_bounds` of the node behind `_trees.at(i)`, when there is one. -/
def childBounds (t : QuadTree) (i : Int) : Option Rect :=
  match t.treesAt i with
  | some (some c) => some c.bounds
  | _ => none

end QuadTree

namespace QuadTree

/-- The node `n` is a node of the tree with root `t`: the root itself, or the node
behind an occupied slot of a node of the tree. -/
inductive IsNode (t : QuadTree) : QuadTree → Prop where
  | root : IsNode t t
  | child {n c : QuadTree} {i : Int} :
      IsNode t n → n.treesAt i = some (some c) → IsNode t c

end QuadTree

/-- The vertical midline of a node with the given bounds (`xMid`, line 61). -/
def Rect.xMid (b : Rect) : Int := b.x + b.width.tdiv 2

/-- The horizontal midline of a node with the given bounds (`yMid`, line 62). -/
def Rect.yMid (b : Rect) : Int := b.y + b.height.tdiv 2

/-- The item lies above the horizontal midline: `y < yMid` and `y + h < yMid`. -/
def Rect.isTopOf (r b : Rect) : Prop := r.y < b.yMid ∧ r.y + r.height < b.yMid

/-- The item lies below the horizontal midline: `y > yMid`. -/
def Rect.isBottomOf (r b : Rect) : Prop := r.y > b.yMid

/-- The item lies left of the vertical midline: `x < xMid` and `x + w < xMid`. -/
def Rect.isLeftOf (r b : Rect) : Prop := r.x < b.xMid ∧ r.x + r.width < b.xMid

/-- The item lies right of the vertical midline: `x > xMid`. -/
def Rect.isRightOf (r b : Rect) : Prop := r.x > b.xMid

instance (r b : Rect) : Decidable (r.isTopOf b) := by
  unfold Rect.isTopOf; infer_instance

instance (r b : Rect) : Decidable (r.isBottomOf b) := by
  unfold Rect.isBottomOf; infer_instance

instance (r b : Rect) : Decidable (r.isLeftOf b) := by
  unfold Rect.isLeftOf; infer_instance

instance (r b : Rect) : Decidable (r.isRightOf b) := by
  unfold Rect.isRightOf; infer_instance

namespace QuadTree

/-- The number of nodes on the longest path from the node down to a node without
occupied slots. -/
def height : QuadTree → Nat
  | mk a0 a1 a2 a3 _ _ _ _ _ =>
    1 + max (max (match a0 with | none => 0 | some c => height c)
                 (match a1 with | none => 0 | some c => height c))
            (max (match a2 with | none => 0 | some c => height c)
                 (match a3 with | none => 0 | some c => height c))

/-- Lines 90-97 with a bound on the depth of the recursion into children: `none` only
when the bound is used up. -/
def queryAux : Nat → QuadTree → List Rect → Rect → Option (Except Fault (List Rect))
  | 0, _, _, _ => none
  | fuel + 1, t, rectangles, rect =>
    let index := findRectanglePosition t.bounds rect
    if index ≠ -1 ∧ t.hasChildren = true then
      match t.treesAt index with
      | none => some (.error .outOfRange)
      | some none => some (.error .nullDeref)
      | some (some c) =>
        match queryAux fuel c rectangles rect with
        | none => none
        | some (.error e) => some (.error e)
        | some (.ok out) => some (.ok (out ++ t.rects))
    else some (.ok (rectangles ++ t.rects))

end QuadTree

namespace QuadTree

/-- The placement invariant at a node and below: every item stored directly at a node
maps to no quadrant of it, and every item stored below slot `i` of a node maps to
quadrant `i` of that node or to none. -/
def placedInv : QuadTree → Bool
  | mk a0 a1 a2 a3 r b _ _ _ =>
    r.all (fun x => decide (findRectanglePosition b x = -1))
    && (match a0 with
        | none => true
        | some c => (c.allItems.all fun x => decide (findRectanglePosition b x = 0)
            || decide (findRectanglePosition b x = -1)) && placedInv c)
    && (match a1 with
        | none => true
        | some c => (c.allItems.all fun x => decide (findRectanglePosition b x = 1)
            || decide (findRectanglePosition b x = -1)) && placedInv c)
    && (match a2 with
        | none => true
        | some c => (c.allItems.all fun x => decide (findRectanglePosition b x = 2)
            || decide (findRectanglePosition b x = -1)) && placedInv c)
    && (match a3 with
        | none => true
        | some c => (c.allItems.all fun x => decide (findRectanglePosition b x = 3)
            || decide (findRectanglePosition b x = -1)) && placedInv c)

/-- The trees left by calls that return: a constructed root, and what a returning
`insert` and `clear` make of such a tree. -/
inductive Built : QuadTree → Prop where
  | construct (bounds : Rect) (maxRect maxLevel : Nat) :
      Built (construct bounds maxRect maxLevel)
  | insert {t t' : QuadTree} (nRect : Rect) :
      Built t → t.insert nRect = some (.returned t') → Built t'
  | clear {t : QuadTree} : Built t → Built (clear t)

end QuadTree

/-! ## Theorems -/

namespace QuadTree

theorem rescan_rel {R : QuadTree → QuadTree → Prop} (hR : InsertStable R)
    (ins : QuadTree → Rect → Option Outcome) (nRect : Rect)
    (hins : ∀ c r o, ins c r = some o → o.Rel R c) :
    ∀ (rest kept : List Rect) (t : QuadTree) (o : Outcome),
      rescan ins nRect t kept rest = some o → o.Rel R t := by
  intro rest
  induction rest with
  | nil =>
    intro kept t o h
    simp only [rescan, Option.some.injEq] at h
    subst h
    exact hR.withRects t kept
  | cons r rest ih =>
    intro kept t o h
    simp only [rescan] at h
    split_ifs at h with hidx
    · exact ih _ t o h
    · split at h
      · simp only [Option.some.injEq] at h
        subst h
        exact hR.withRects t _
      · simp only [Option.some.injEq] at h
        subst h
        trivial
      · rename_i c hc
        split at h
        · exact absurd h (by simp)
        · rename_i c' hc'
          have h1 := hins c r _ hc'
          have h2 := ih _ _ o h
          have h3 : R t (t.setTree (findRectanglePosition t.bounds nRect) c') :=
            hR.setTree t _ c c' hc h1
          cases o with
          | returned t' => exact hR.trans _ _ _ h3 h2
          | threw t' => exact hR.trans _ _ _ h3 h2
          | undefined => trivial
        · rename_i c' hc'
          simp only [Option.some.injEq] at h
          subst h
          have h1 := hins c r _ hc'
          exact hR.trans _ _ _ (hR.setTree t _ c c' hc h1) (hR.withRects _ _)
        · simp only [Option.some.injEq] at h
          subst h
          trivial

theorem insertAux_rel {R : QuadTree → QuadTree → Prop} (hR : InsertStable R) :
    ∀ (fuel : Nat) (t : QuadTree) (nRect : Rect) (o : Outcome),
      insertAux fuel t nRect = some o → o.Rel R t := by
  intro fuel
  induction fuel with
  | zero => intro t nRect o h; simp [insertAux] at h
  | succ fuel ih =>
    intro t nRect o h
    simp only [insertAux] at h
    split_ifs at h with h1 h2
    · simp only [Option.some.injEq] at h
      subst h
      exact hR.refl t
    · have h3 := rescan_rel hR (insertAux fuel) nRect (fun c r o => ih c r o) _ _ _ o h
      have h4 : R t (t.withRects (t.rects ++ [nRect])).split :=
        hR.trans _ _ _ (hR.withRects t _) (hR.split _ (by simpa using h2.2.2) h2.2.1)
      cases o with
      | returned t' => exact hR.trans _ _ _ h4 h3
      | threw t' => exact hR.trans _ _ _ h4 h3
      | undefined => trivial
    · have h3 := rescan_rel hR (insertAux fuel) nRect (fun c r o => ih c r o) _ _ _ o h
      have h4 : R t (t.withRects (t.rects ++ [nRect])) := hR.withRects t _
      cases o with
      | returned t' => exact hR.trans _ _ _ h4 h3
      | threw t' => exact hR.trans _ _ _ h4 h3
      | undefined => trivial


theorem allOrNone_mk (a0 a1 a2 a3 : Option QuadTree) (r : List Rect) (b : Rect)
    (l m ml : Nat) :
    (mk a0 a1 a2 a3 r b l m ml).allOrNone =
      (((a0.isSome && a1.isSome && a2.isSome && a3.isSome)
        || (a0.isNone && a1.isNone && a2.isNone && a3.isNone))
      && a0.all allOrNone && a1.all allOrNone && a2.all allOrNone && a3.all allOrNone) := by
  cases a0 <;> cases a1 <;> cases a2 <;> cases a3 <;> rfl

theorem levelInv_mk (a0 a1 a2 a3 : Option QuadTree) (r : List Rect) (b : Rect)
    (l m ml : Nat) :
    (mk a0 a1 a2 a3 r b l m ml).levelInv =
      (decide (l ≤ ml)
      && a0.all (fun c => decide (c.level = l + 1) && decide (c.maxRect = m)
            && decide (c.maxLevel = ml) && levelInv c)
      && a1.all (fun c => decide (c.level = l + 1) && decide (c.maxRect = m)
            && decide (c.maxLevel = ml) && levelInv c)
      && a2.all (fun c => decide (c.level = l + 1) && decide (c.maxRect = m)
            && decide (c.maxLevel = ml) && levelInv c)
      && a3.all (fun c => decide (c.level = l + 1) && decide (c.maxRect = m)
            && decide (c.maxLevel = ml) && levelInv c)) := by
  cases a0 <;> cases a1 <;> cases a2 <;> cases a3 <;> rfl

theorem depthBound_mk (a0 a1 a2 a3 : Option QuadTree) (r : List Rect) (b : Rect)
    (l m ml : Nat) :
    (mk a0 a1 a2 a3 r b l m ml).depthBound =
      1 + max (ml - l)
        (max (max (a0.elim 0 depthBound) (a1.elim 0 depthBound))
             (max (a2.elim 0 depthBound) (a3.elim 0 depthBound))) := by
  cases a0 <;> cases a1 <;> cases a2 <;> cases a3 <;> rfl

theorem allItems_mk (a0 a1 a2 a3 : Option QuadTree) (r : List Rect) (b : Rect)
    (l m ml : Nat) :
    (mk a0 a1 a2 a3 r b l m ml).allItems =
      r ++ (a0.elim [] allItems ++ (a1.elim [] allItems
        ++ (a2.elim [] allItems ++ a3.elim [] allItems))) := by
  cases a0 <;> cases a1 <;> cases a2 <;> cases a3 <;> rfl

@[simp] theorem level_withRects (t : QuadTree) (r : List Rect) :
    (t.withRects r).level = t.level := by cases t; rfl

@[simp] theorem maxRect_withRects (t : QuadTree) (r : List Rect) :
    (t.withRects r).maxRect = t.maxRect := by cases t; rfl

@[simp] theorem maxLevel_withRects (t : QuadTree) (r : List Rect) :
    (t.withRects r).maxLevel = t.maxLevel := by cases t; rfl

@[simp] theorem bounds_withRects (t : QuadTree) (r : List Rect) :
    (t.withRects r).bounds = t.bounds := by cases t; rfl

@[simp] theorem rects_withRects (t : QuadTree) (r : List Rect) :
    (t.withRects r).rects = r := by cases t; rfl

@[simp] theorem hasChildren_withRects (t : QuadTree) (r : List Rect) :
    (t.withRects r).hasChildren = t.hasChildren := by cases t; rfl

@[simp] theorem treesAt_withRects (t : QuadTree) (r : List Rect) (i : Int) :
    (t.withRects r).treesAt i = t.treesAt i := by cases t; rfl

@[simp] theorem allOrNone_withRects (t : QuadTree) (r : List Rect) :
    (t.withRects r).allOrNone = t.allOrNone := by
  cases t; simp only [withRects, allOrNone_mk]

@[simp] theorem levelInv_withRects (t : QuadTree) (r : List Rect) :
    (t.withRects r).levelInv = t.levelInv := by
  cases t; simp only [withRects, levelInv_mk]

@[simp] theorem depthBound_withRects (t : QuadTree) (r : List Rect) :
    (t.withRects r).depthBound = t.depthBound := by
  cases t; simp only [withRects, depthBound_mk]

@[simp] theorem withRects_withRects (t : QuadTree) (r s : List Rect) :
    (t.withRects r).withRects s = t.withRects s := by cases t; rfl

@[simp] theorem level_setTree (t : QuadTree) (i : Int) (c : QuadTree) :
    (t.setTree i c).level = t.level := by
  cases t; simp only [setTree]; split_ifs <;> rfl

@[simp] theorem maxRect_setTree (t : QuadTree) (i : Int) (c : QuadTree) :
    (t.setTree i c).maxRect = t.maxRect := by
  cases t; simp only [setTree]; split_ifs <;> rfl

@[simp] theorem maxLevel_setTree (t : QuadTree) (i : Int) (c : QuadTree) :
    (t.setTree i c).maxLevel = t.maxLevel := by
  cases t; simp only [setTree]; split_ifs <;> rfl

@[simp] theorem bounds_setTree (t : QuadTree) (i : Int) (c : QuadTree) :
    (t.setTree i c).bounds = t.bounds := by
  cases t; simp only [setTree]; split_ifs <;> rfl

@[simp] theorem rects_setTree (t : QuadTree) (i : Int) (c : QuadTree) :
    (t.setTree i c).rects = t.rects := by
  cases t; simp only [setTree]; split_ifs <;> rfl

theorem kept_refl (t : QuadTree) : Kept t t :=
  ⟨rfl, rfl, rfl, rfl, id, id, le_refl _⟩

theorem kept_trans (a b c : QuadTree) (h1 : Kept a b) (h2 : Kept b c) : Kept a c := by
  obtain ⟨p1, p2, p3, p4, p5, p6, p7⟩ := h1
  obtain ⟨q1, q2, q3, q4, q5, q6, q7⟩ := h2
  exact ⟨q1.trans p1, q2.trans p2, q3.trans p3, q4.trans p4, fun h => q5 (p5 h),
    fun h => q6 (p6 h), le_trans q7 p7⟩

theorem kept_withRects (t : QuadTree) (r : List Rect) : Kept t (t.withRects r) := by
  simp [Kept]

theorem kept_split (t : QuadTree) (_h : t.hasChildren = false) (hl : t.level < t.maxLevel) :
    Kept t t.split := by
  obtain ⟨a0, a1, a2, a3, r, b, l, m, ml⟩ := t
  simp only [level, maxLevel] at hl
  refine ⟨rfl, rfl, rfl, rfl, ?_, ?_, ?_⟩
  · intro _
    simp only [split, allOrNone_mk, constructAt, Option.isSome_some, Option.all_some,
      Option.isNone_none, Option.all_none, Bool.and_self, Bool.or_true, Bool.true_or]
  · intro _
    simp only [split, levelInv_mk, constructAt, level, maxRect, maxLevel, Option.all_some,
      Option.all_none, Bool.and_eq_true, decide_eq_true_eq, Bool.and_true, and_self, and_true,
      true_and]
    exact ⟨⟨⟨⟨hl.le, hl⟩, hl⟩, hl⟩, hl⟩
  · simp only [split, depthBound_mk, constructAt, Option.elim_some, Option.elim_none]
    omega

theorem treesAt_some_cases {a0 a1 a2 a3 : Option QuadTree} {r : List Rect} {b : Rect}
    {l m ml : Nat} {i : Int} {c : QuadTree}
    (hc : (mk a0 a1 a2 a3 r b l m ml).treesAt i = some (some c)) :
    (i = 0 ∧ a0 = some c) ∨ (i = 1 ∧ a1 = some c) ∨ (i = 2 ∧ a2 = some c)
      ∨ (i = 3 ∧ a3 = some c) := by
  simp only [treesAt, t0, t1, t2, t3] at hc
  split_ifs at hc with h0 h1 h2 h3 <;> simp only [Option.some.injEq] at hc
  · exact Or.inl ⟨h0, hc⟩
  · exact Or.inr (Or.inl ⟨h1, hc⟩)
  · exact Or.inr (Or.inr (Or.inl ⟨h2, hc⟩))
  · exact Or.inr (Or.inr (Or.inr ⟨h3, hc⟩))

theorem kept_setTree (t : QuadTree) (i : Int) (c c' : QuadTree)
    (hc : t.treesAt i = some (some c)) (h : Kept c c') : Kept t (t.setTree i c') := by
  obtain ⟨a0, a1, a2, a3, r, b, l, m, ml⟩ := t
  obtain ⟨q1, q2, q3, q4, q5, q6, q7⟩ := h
  refine ⟨by simp, by simp, by simp, by simp, ?_, ?_, ?_⟩
  · rcases treesAt_some_cases hc with ⟨rfl, rfl⟩ | ⟨rfl, rfl⟩ | ⟨rfl, rfl⟩ | ⟨rfl, rfl⟩ <;>
      simp only [setTree, allOrNone_mk, Bool.and_eq_true, Bool.or_eq_true, Option.isSome_some,
        Option.isNone_some, Option.all_some, if_true, if_false, one_ne_zero, OfNat.ofNat_ne_zero,
        OfNat.ofNat_ne_one, reduceIte, Int.reduceEq] <;>
      tauto
  · rcases treesAt_some_cases hc with ⟨rfl, rfl⟩ | ⟨rfl, rfl⟩ | ⟨rfl, rfl⟩ | ⟨rfl, rfl⟩ <;>
      simp only [setTree, levelInv_mk, Bool.and_eq_true, decide_eq_true_eq, q1, q2, q3,
        Option.all_some, reduceIte, Int.reduceEq] <;>
      tauto
  · rcases treesAt_some_cases hc with ⟨rfl, rfl⟩ | ⟨rfl, rfl⟩ | ⟨rfl, rfl⟩ | ⟨rfl, rfl⟩ <;>
      simp only [setTree, depthBound_mk, Option.elim_some, reduceIte, Int.reduceEq] <;>
      omega

theorem kept_stable : InsertStable Kept :=
  ⟨kept_refl, kept_trans, kept_withRects, kept_split, kept_setTree⟩

theorem depthBound_pos (t : QuadTree) : 1 ≤ t.depthBound := by
  obtain ⟨a0, a1, a2, a3, r, b, l, m, ml⟩ := t
  simp only [depthBound_mk]
  omega

theorem depthBound_child {t c : QuadTree} {i : Int} (hc : t.treesAt i = some (some c)) :
    c.depthBound + 1 ≤ t.depthBound := by
  obtain ⟨a0, a1, a2, a3, r, b, l, m, ml⟩ := t
  rcases treesAt_some_cases hc with ⟨rfl, rfl⟩ | ⟨rfl, rfl⟩ | ⟨rfl, rfl⟩ | ⟨rfl, rfl⟩ <;>
    simp only [depthBound_mk, Option.elim_some] <;> omega

theorem rescan_total (ins : QuadTree → Rect → Option Outcome) (nRect : Rect) (f : Nat)
    (hins : ∀ c r, c.depthBound ≤ f → ∃ o, ins c r = some o)
    (hk : ∀ c r o, ins c r = some o → o.Rel Kept c) :
    ∀ (rest kept : List Rect) (t : QuadTree), t.depthBound ≤ f + 1 →
      ∃ o, rescan ins nRect t kept rest = some o := by
  intro rest
  induction rest with
  | nil => intro kept t _; exact ⟨_, rfl⟩
  | cons r rest ih =>
    intro kept t ht
    by_cases hidx : findRectanglePosition t.bounds nRect = -1
    · simp only [rescan, hidx, if_true]
      exact ih _ t ht
    · simp only [rescan, hidx, if_false]
      cases hc : t.treesAt (findRectanglePosition t.bounds nRect) with
      | none => exact ⟨_, rfl⟩
      | some s =>
        cases s with
        | none => exact ⟨_, rfl⟩
        | some c =>
          have hcd := depthBound_child hc
          obtain ⟨o', ho'⟩ := hins c r (by omega)
          have hrel := hk c r o' ho'
          simp only [ho']
          cases o' with
          | returned c' =>
            have hs := kept_setTree t _ c c' hc hrel
            exact ih _ _ (le_trans hs.2.2.2.2.2.2 ht)
          | threw c' => exact ⟨_, rfl⟩
          | undefined => exact ⟨_, rfl⟩

/-- With the recursion bound at least `depthBound`, `insert` ends in one of its three
outcomes: the bound is never what stops it. -/
theorem insertAux_total : ∀ (fuel : Nat) (t : QuadTree) (nRect : Rect),
    t.depthBound ≤ fuel → ∃ o, insertAux fuel t nRect = some o := by
  intro fuel
  induction fuel with
  | zero => intro t nRect h; have := depthBound_pos t; omega
  | succ fuel ih =>
    intro t nRect h
    simp only [insertAux]
    split_ifs with h1 h2
    · exact ⟨_, rfl⟩
    · apply rescan_total _ _ fuel (fun c r hc => ih c r hc)
        (fun c r o ho => insertAux_rel kept_stable fuel c r o ho)
      have h4 := kept_trans _ _ _ (kept_withRects t (t.rects ++ [nRect]))
        (kept_split _ (by simpa using h2.2.2) h2.2.1)
      exact le_trans h4.2.2.2.2.2.2 h
    · apply rescan_total _ _ fuel (fun c r hc => ih c r hc)
        (fun c r o ho => insertAux_rel kept_stable fuel c r o ho)
      simpa using h

theorem insert_total (t : QuadTree) (nRect : Rect) : ∃ o, t.insert nRect = some o :=
  insertAux_total _ t nRect (le_refl _)

theorem rescan_mono (ins ins' : QuadTree → Rect → Option Outcome) (nRect : Rect)
    (h : ∀ c r o, ins c r = some o → ins' c r = some o) :
    ∀ (rest kept : List Rect) (t : QuadTree) (o : Outcome),
      rescan ins nRect t kept rest = some o → rescan ins' nRect t kept rest = some o := by
  intro rest
  induction rest with
  | nil => intro kept t o ho; exact ho
  | cons r rest ih =>
    intro kept t o ho
    by_cases hidx : findRectanglePosition t.bounds nRect = -1
    · simp only [rescan, hidx, if_true] at ho ⊢
      exact ih _ t o ho
    · simp only [rescan, hidx, if_false] at ho ⊢
      cases hc : t.treesAt (findRectanglePosition t.bounds nRect) with
      | none => simpa only [hc] using ho
      | some s =>
        cases s with
        | none => simpa only [hc] using ho
        | some c =>
          simp only [hc] at ho ⊢
          cases hi : ins c r with
          | none => simp only [hi] at ho; exact absurd ho (by simp)
          | some o' =>
            simp only [hi] at ho
            simp only [h c r o' hi]
            cases o' with
            | returned c' => exact ih _ _ o ho
            | threw c' => exact ho
            | undefined => exact ho

theorem insertAux_succ : ∀ (fuel : Nat) (t : QuadTree) (nRect : Rect) (o : Outcome),
    insertAux fuel t nRect = some o → insertAux (fuel + 1) t nRect = some o := by
  intro fuel
  induction fuel with
  | zero => intro t nRect o h; simp [insertAux] at h
  | succ fuel ih =>
    intro t nRect o h
    rw [insertAux] at h ⊢
    split_ifs at h ⊢
    · exact h
    · exact rescan_mono _ _ nRect (fun c r o => ih c r o) _ _ _ o h

theorem insertAux_le {f g : Nat} (hfg : f ≤ g) (t : QuadTree) (nRect : Rect) (o : Outcome)
    (h : insertAux f t nRect = some o) : insertAux g t nRect = some o := by
  induction hfg with
  | refl => exact h
  | step _ ih => exact insertAux_succ _ t nRect o ih

/-- Whatever bound lets `insertAux` finish, the outcome is that of `insert`. -/
theorem insert_eq_of_insertAux {f : Nat} {t : QuadTree} {nRect : Rect} {o : Outcome}
    (h : insertAux f t nRect = some o) : t.insert nRect = some o := by
  obtain ⟨o', ho'⟩ := insert_total t nRect
  have h1 := insertAux_le (le_max_left f t.depthBound) t nRect o h
  have h2 := insertAux_le (le_max_right f t.depthBound) t nRect o' ho'
  rw [h1] at h2
  rw [ho', ← Option.some.inj h2]

theorem allItems_eq (t : QuadTree) : t.allItems = t.rects ++ t.childItems := by
  obtain ⟨a0, a1, a2, a3, r, b, l, m, ml⟩ := t
  simp only [allItems_mk, childItems, rects, t0, t1, t2, t3]

@[simp] theorem childItems_withRects (t : QuadTree) (r : List Rect) :
    (t.withRects r).childItems = t.childItems := by cases t; rfl

theorem childItems_setTree {t c c' : QuadTree} {i : Int} {x : Rect}
    (hc : t.treesAt i = some (some c)) (h : c'.allItems.Perm (x :: c.allItems)) :
    (t.setTree i c').childItems.Perm (x :: t.childItems) := by
  obtain ⟨a0, a1, a2, a3, r, b, l, m, ml⟩ := t
  rw [List.perm_iff_count]
  intro a
  have hcount := h.count_eq a
  rcases treesAt_some_cases hc with ⟨rfl, rfl⟩ | ⟨rfl, rfl⟩ | ⟨rfl, rfl⟩ | ⟨rfl, rfl⟩ <;>
    simp only [setTree, childItems, t0, t1, t2, t3, Option.elim_some, reduceIte, Int.reduceEq,
      List.count_append, List.count_cons] at hcount ⊢ <;>
    omega

theorem childItems_split (t : QuadTree) : t.split.childItems = [] := by
  cases t; rfl

theorem rects_split (t : QuadTree) : t.split.rects = t.rects := by
  cases t; rfl

theorem childItems_of_leaf {t : QuadTree} (h : t.allOrNone = true)
    (hl : t.hasChildren = false) : t.childItems = [] := by
  obtain ⟨a0, a1, a2, a3, r, b, l, m, ml⟩ := t
  simp only [hasChildren, t0] at hl
  cases a0 with
  | some c => simp at hl
  | none =>
    simp only [allOrNone_mk, Bool.and_eq_true, Bool.or_eq_true, Option.isSome_none,
      Option.isNone_none, Bool.false_and, Bool.true_and, false_or, Bool.false_eq_true,
      Option.isNone_iff_eq_none] at h
    obtain ⟨⟨⟨⟨⟨⟨h1, h2⟩, h3⟩, _⟩, _⟩, _⟩, _⟩ := h
    subst h1 h2 h3
    rfl

theorem allOrNone_child {t c : QuadTree} {i : Int} (hc : t.treesAt i = some (some c))
    (h : t.allOrNone = true) : c.allOrNone = true := by
  obtain ⟨a0, a1, a2, a3, r, b, l, m, ml⟩ := t
  rcases treesAt_some_cases hc with ⟨rfl, rfl⟩ | ⟨rfl, rfl⟩ | ⟨rfl, rfl⟩ | ⟨rfl, rfl⟩ <;>
    simp only [allOrNone_mk, Bool.and_eq_true, Option.all_some] at h <;> tauto

theorem rescan_items (ins : QuadTree → Rect → Option Outcome) (nRect : Rect)
    (hk : ∀ c r o, ins c r = some o → o.Rel Kept c)
    (hins : ∀ c r c', c.allOrNone = true → ins c r = some (.returned c') →
      c'.allItems.Perm (r :: c.allItems)) :
    ∀ (rest kept : List Rect) (t t' : QuadTree), t.allOrNone = true →
      rescan ins nRect t kept rest = some (.returned t') →
      t'.allItems.Perm (kept ++ rest ++ t.childItems) := by
  intro rest
  induction rest with
  | nil =>
    intro kept t t' _ h
    simp only [rescan, Option.some.injEq, Outcome.returned.injEq] at h
    subst h
    simp [allItems_eq]
  | cons r rest ih =>
    intro kept t t' ht h
    by_cases hidx : findRectanglePosition t.bounds nRect = -1
    · simp only [rescan, hidx, if_true] at h
      simpa using ih _ t t' ht h
    · simp only [rescan, hidx, if_false] at h
      cases hc : t.treesAt (findRectanglePosition t.bounds nRect) with
      | none => simp [hc] at h
      | some s =>
        cases s with
        | none => simp [hc] at h
        | some c =>
          simp only [hc] at h
          cases hi : ins c r with
          | none => simp [hi] at h
          | some o' =>
            simp only [hi] at h
            cases o' with
            | returned c' =>
              have hcA := allOrNone_child hc ht
              have hp := hins c r c' hcA hi
              have hkept := kept_setTree t _ c c' hc (hk c r _ hi)
              have h1 := ih kept _ t' (hkept.2.2.2.2.1 ht) h
              have h2 := childItems_setTree hc hp
              refine h1.trans ?_
              refine ((List.Perm.append_left _ h2).trans ?_)
              rw [List.perm_iff_count]
              intro a
              simp only [List.count_append, List.count_cons]
              omega
            | threw c' => simp at h
            | undefined => simp at h

theorem insertAux_items : ∀ (fuel : Nat) (t : QuadTree) (nRect : Rect) (t' : QuadTree),
    t.allOrNone = true → insertAux fuel t nRect = some (.returned t') →
    t'.allItems.Perm (nRect :: t.allItems) := by
  intro fuel
  induction fuel with
  | zero => intro t nRect t' _ h; simp [insertAux] at h
  | succ fuel ih =>
    intro t nRect t' ht h
    simp only [insertAux] at h
    split_ifs at h with h1 h2
    · simp at h
    · have hleaf : t.hasChildren = false := by simpa using h2.2.2
      have hA : ((t.withRects (t.rects ++ [nRect])).split).allOrNone = true :=
        (kept_trans _ _ _ (kept_withRects t _)
          (kept_split _ (by simpa using h2.2.2) h2.2.1)).2.2.2.2.1 ht
      have h3 := rescan_items (insertAux fuel) nRect
        (fun c r o ho => insertAux_rel kept_stable fuel c r o ho)
        (fun c r c' hc ho => ih c r c' hc ho) _ _ _ t' hA h
      rw [childItems_split, rects_split, rects_withRects] at h3
      rw [allItems_eq t, childItems_of_leaf ht hleaf]
      refine h3.trans ?_
      simp
    · have hA : (t.withRects (t.rects ++ [nRect])).allOrNone = true := by simpa using ht
      have h3 := rescan_items (insertAux fuel) nRect
        (fun c r o ho => insertAux_rel kept_stable fuel c r o ho)
        (fun c r c' hc ho => ih c r c' hc ho) _ _ _ t' hA h
      rw [rects_withRects, childItems_withRects] at h3
      rw [allItems_eq t]
      refine h3.trans ?_
      rw [List.perm_iff_count]
      intro a
      simp only [List.count_append, List.count_cons, List.count_nil]
      omega

theorem clear_inv (t : QuadTree) (h : t.levelInv = true) :
    t.clear.allOrNone = true ∧ t.clear.levelInv = true := by
  obtain ⟨a0, a1, a2, a3, r, b, l, m, ml⟩ := t
  simp only [levelInv_mk, Bool.and_eq_true, decide_eq_true_eq] at h
  constructor
  · simp [clear, allOrNone_mk]
  · simp only [clear, levelInv_mk, Option.all_none, Bool.and_true, decide_eq_true_eq]
    exact h.1.1.1.1

theorem reachable_inv {t : QuadTree} (h : Reachable t) :
    t.allOrNone = true ∧ t.levelInv = true := by
  induction h with
  | construct b m ml =>
    constructor
    · simp [construct, allOrNone_mk]
    · simp [construct, levelInv_mk]
  | insert nRect _ hins ih =>
    have hk := insertAux_rel kept_stable _ _ _ _ hins
    exact ⟨hk.2.2.2.2.1 ih.1, hk.2.2.2.2.2.1 ih.2⟩
  | insertThrew nRect _ hins ih =>
    have hk := insertAux_rel kept_stable _ _ _ _ hins
    exact ⟨hk.2.2.2.2.1 ih.1, hk.2.2.2.2.2.1 ih.2⟩
  | clear _ ih => exact clear_inv _ ih.2

theorem induct {P : QuadTree → Prop}
    (h : ∀ t, (∀ i c, t.treesAt i = some (some c) → P c) → P t) : ∀ t, P t := by
  have key : ∀ n t, t.depthBound ≤ n → P t := by
    intro n
    induction n with
    | zero => intro t ht; have := depthBound_pos t; omega
    | succ n ih =>
      intro t ht
      apply h
      intro i c hc
      have := depthBound_child hc
      exact ih c (by omega)
  intro t
  exact key _ t (le_refl _)

theorem findRectanglePosition_range (bounds rect : Rect) :
    findRectanglePosition bounds rect = -1 ∨ findRectanglePosition bounds rect = 0
      ∨ findRectanglePosition bounds rect = 1 ∨ findRectanglePosition bounds rect = 2
      ∨ findRectanglePosition bounds rect = 3 := by
  unfold findRectanglePosition
  simp only []
  split_ifs <;> simp

theorem _getPossibleCollisions_mk (a0 a1 a2 a3 : Option QuadTree) (r : List Rect) (b : Rect)
    (l m ml : Nat) (out : List Rect) (rect : Rect) :
    (mk a0 a1 a2 a3 r b l m ml)._getPossibleCollisions out rect =
      if findRectanglePosition b rect ≠ -1 ∧ a0.isSome then
        match (if findRectanglePosition b rect = 0 then slotQuery out rect a0
          else if findRectanglePosition b rect = 1 then slotQuery out rect a1
          else if findRectanglePosition b rect = 2 then slotQuery out rect a2
          else if findRectanglePosition b rect = 3 then slotQuery out rect a3
          else .error .outOfRange) with
        | .error e => .error e
        | .ok o => .ok (o ++ r)
      else .ok (out ++ r) := by
  cases a0 <;> cases a1 <;> cases a2 <;> cases a3 <;> rfl

theorem query_stop {t : QuadTree} {rect : Rect}
    (h : ¬ (findRectanglePosition t.bounds rect ≠ -1 ∧ t.hasChildren = true))
    (out : List Rect) : t._getPossibleCollisions out rect = .ok (out ++ t.rects) := by
  obtain ⟨a0, a1, a2, a3, r, b, l, m, ml⟩ := t
  simp only [bounds, hasChildren, t0] at h
  rw [_getPossibleCollisions_mk, if_neg h]
  rfl

theorem query_descend {t c : QuadTree} {rect : Rect}
    (h1 : findRectanglePosition t.bounds rect ≠ -1) (h2 : t.hasChildren = true)
    (hc : t.treesAt (findRectanglePosition t.bounds rect) = some (some c))
    (out : List Rect) :
    t._getPossibleCollisions out rect =
      match c._getPossibleCollisions out rect with
      | .error e => .error e
      | .ok o => .ok (o ++ t.rects) := by
  obtain ⟨a0, a1, a2, a3, r, b, l, m, ml⟩ := t
  simp only [bounds, hasChildren, t0] at h1 h2 hc
  rw [_getPossibleCollisions_mk, if_pos ⟨h1, h2⟩]
  rcases treesAt_some_cases hc with ⟨hi, rfl⟩ | ⟨hi, rfl⟩ | ⟨hi, rfl⟩ | ⟨hi, rfl⟩ <;>
    simp only [hi, reduceIte, Int.reduceEq, slotQuery, rects]

theorem treesAt_of_allOrNone {t : QuadTree} (h : t.allOrNone = true)
    (hc : t.hasChildren = true) {i : Int} (hi : i = 0 ∨ i = 1 ∨ i = 2 ∨ i = 3) :
    ∃ c, t.treesAt i = some (some c) := by
  obtain ⟨a0, a1, a2, a3, r, b, l, m, ml⟩ := t
  simp only [hasChildren, t0] at hc
  simp only [allOrNone_mk, Bool.and_eq_true, Bool.or_eq_true] at h
  obtain ⟨⟨⟨⟨h0, _⟩, _⟩, _⟩, _⟩ := h
  have hs : a0.isSome = true ∧ a1.isSome = true ∧ a2.isSome = true ∧ a3.isSome = true := by
    rcases h0 with ⟨⟨⟨p0, p1⟩, p2⟩, p3⟩ | ⟨⟨⟨p0, _⟩, _⟩, _⟩
    · exact ⟨p0, p1, p2, p3⟩
    · cases a0 <;> simp at hc p0
  obtain ⟨p0, p1, p2, p3⟩ := hs
  rcases hi with rfl | rfl | rfl | rfl
  · obtain ⟨c, hc⟩ := Option.isSome_iff_exists.mp p0
    exact ⟨c, by simp [treesAt, t0, hc]⟩
  · obtain ⟨c, hc⟩ := Option.isSome_iff_exists.mp p1
    exact ⟨c, by simp [treesAt, t1, hc]⟩
  · obtain ⟨c, hc⟩ := Option.isSome_iff_exists.mp p2
    exact ⟨c, by simp [treesAt, t2, hc]⟩
  · obtain ⟨c, hc⟩ := Option.isSome_iff_exists.mp p3
    exact ⟨c, by simp [treesAt, t3, hc]⟩

theorem query_onPath (rect : Rect) : ∀ t : QuadTree, t.allOrNone = true → ∀ out : List Rect,
    ∃ l, t._getPossibleCollisions out rect = .ok (out ++ l)
      ∧ ∀ r, r ∈ l ↔ OnQueryPath rect t r := by
  intro t
  induction t using induct with
  | h t ih =>
    intro ht out
    by_cases hd : findRectanglePosition t.bounds rect ≠ -1 ∧ t.hasChildren = true
    · have hr : findRectanglePosition t.bounds rect = 0 ∨ findRectanglePosition t.bounds rect = 1
          ∨ findRectanglePosition t.bounds rect = 2 ∨ findRectanglePosition t.bounds rect = 3 := by
        rcases findRectanglePosition_range t.bounds rect with h | h
        · exact absurd h hd.1
        · exact h
      obtain ⟨c, hc⟩ := treesAt_of_allOrNone ht hd.2 hr
      obtain ⟨l, hl, hmem⟩ := ih _ c hc (allOrNone_child hc ht) out
      refine ⟨l ++ t.rects, ?_, ?_⟩
      · rw [query_descend hd.1 hd.2 hc, hl]
        simp
      · intro r
        rw [List.mem_append, hmem]
        constructor
        · rintro (h | h)
          · exact OnQueryPath.inChild hd.2 hd.1 hc h
          · exact OnQueryPath.atNode h
        · intro h
          cases h with
          | atNode h => exact Or.inr h
          | inChild _ _ hc2 h =>
            rw [hc] at hc2
            cases hc2
            exact Or.inl h
    · refine ⟨t.rects, query_stop hd out, ?_⟩
      intro r
      constructor
      · exact OnQueryPath.atNode
      · intro h
        cases h with
        | atNode h => exact h
        | inChild h2 h1 _ _ => exact absurd ⟨h1, h2⟩ hd

theorem childBounds_split_cases {a0 a1 a2 a3 : Option QuadTree} {rs : List Rect}
    {x y w h : Int} {l m ml : Nat} {i : Int} {r : Rect}
    (hr : (mk a0 a1 a2 a3 rs ⟨x, y, w, h⟩ l m ml).split.childBounds i = some r) :
    (i = 0 ∧ r = ⟨x + w.tdiv 2, y, w.tdiv 2, h.tdiv 2⟩)
      ∨ (i = 1 ∧ r = ⟨x, y, w.tdiv 2, h.tdiv 2⟩)
      ∨ (i = 2 ∧ r = ⟨x, y + h.tdiv 2, w.tdiv 2, h.tdiv 2⟩)
      ∨ (i = 3 ∧ r = ⟨x + w.tdiv 2, y + h.tdiv 2, w.tdiv 2, h.tdiv 2⟩) := by
  simp only [childBounds, split, treesAt, t0, t1, t2, t3, constructAt] at hr
  split_ifs at hr with h0 h1 h2 h3 <;> simp only [bounds, Option.some.injEq] at hr
  · exact Or.inl ⟨h0, hr.symm⟩
  · exact Or.inr (Or.inl ⟨h1, hr.symm⟩)
  · exact Or.inr (Or.inr (Or.inl ⟨h2, hr.symm⟩))
  · exact Or.inr (Or.inr (Or.inr ⟨h3, hr.symm⟩))

theorem tdiv_two_nonneg {w : Int} (hw : 0 ≤ w) : (0 : ℚ) ≤ ((w.tdiv 2 : Int) : ℚ) := by
  have h : 0 ≤ w.tdiv 2 := by
    rw [Int.tdiv_eq_ediv hw (by decide)]
    omega
  exact_mod_cast h

theorem split_interiors_disjoint {a0 a1 a2 a3 : Option QuadTree} {rs : List Rect}
    {x y w h : Int} {l m ml : Nat} (hw : 0 ≤ w) (hh : 0 ≤ h) {i j : Int} {ri rj : Rect}
    (hij : i ≠ j)
    (hi : (mk a0 a1 a2 a3 rs ⟨x, y, w, h⟩ l m ml).split.childBounds i = some ri)
    (hj : (mk a0 a1 a2 a3 rs ⟨x, y, w, h⟩ l m ml).split.childBounds j = some rj)
    (px py : ℚ) : ¬ (ri.interior px py ∧ rj.interior px py) := by
  have dw := tdiv_two_nonneg hw
  have dh := tdiv_two_nonneg hh
  rintro ⟨⟨p1, p2, p3, p4⟩, ⟨q1, q2, q3, q4⟩⟩
  rcases childBounds_split_cases hi with ⟨rfl, rfl⟩ | ⟨rfl, rfl⟩ | ⟨rfl, rfl⟩ | ⟨rfl, rfl⟩ <;>
    rcases childBounds_split_cases hj with ⟨rfl, rfl⟩ | ⟨rfl, rfl⟩ | ⟨rfl, rfl⟩ | ⟨rfl, rfl⟩ <;>
    first
    | exact absurd rfl hij
    | (simp only [Int.cast_add] at p1 p2 p3 p4 q1 q2 q3 q4; linarith)

theorem split_union {a0 a1 a2 a3 : Option QuadTree} {rs : List Rect}
    {x y w h : Int} {l m ml : Nat} (hw : 0 ≤ w) (hh : 0 ≤ h) (px py : ℚ) :
    (∃ i r, (mk a0 a1 a2 a3 rs ⟨x, y, w, h⟩ l m ml).split.childBounds i = some r
        ∧ r.covers px py)
      ↔ Rect.covers ⟨x, y, 2 * w.tdiv 2, 2 * h.tdiv 2⟩ px py := by
  have dw := tdiv_two_nonneg hw
  have dh := tdiv_two_nonneg hh
  constructor
  · rintro ⟨i, r, hr, p1, p2, p3, p4⟩
    rcases childBounds_split_cases hr with ⟨rfl, rfl⟩ | ⟨rfl, rfl⟩ | ⟨rfl, rfl⟩ | ⟨rfl, rfl⟩ <;>
      simp only [Int.cast_add] at p1 p2 p3 p4 <;>
      refine ⟨?_, ?_, ?_, ?_⟩ <;> simp only [Int.cast_mul, Int.cast_ofNat] <;> linarith
  · rintro ⟨p1, p2, p3, p4⟩
    simp only [Int.cast_mul, Int.cast_ofNat] at p1 p2 p3 p4
    by_cases hx : px ≤ (x : ℚ) + ((w.tdiv 2 : Int) : ℚ)
    · by_cases hy : py ≤ (y : ℚ) + ((h.tdiv 2 : Int) : ℚ)
      · refine ⟨1, ⟨x, y, w.tdiv 2, h.tdiv 2⟩, rfl, ?_, ?_, ?_, ?_⟩ <;> linarith
      · refine ⟨2, ⟨x, y + h.tdiv 2, w.tdiv 2, h.tdiv 2⟩, rfl, ?_, ?_, ?_, ?_⟩ <;>
          simp only [Int.cast_add] <;> linarith
    · by_cases hy : py ≤ (y : ℚ) + ((h.tdiv 2 : Int) : ℚ)
      · refine ⟨0, ⟨x + w.tdiv 2, y, w.tdiv 2, h.tdiv 2⟩, rfl, ?_, ?_, ?_, ?_⟩ <;>
          simp only [Int.cast_add] <;> linarith
      · refine ⟨3, ⟨x + w.tdiv 2, y + h.tdiv 2, w.tdiv 2, h.tdiv 2⟩, rfl, ?_, ?_, ?_, ?_⟩ <;>
          simp only [Int.cast_add] <;> linarith

theorem two_mul_tdiv_two {w : Int} (hw : 0 ≤ w) (he : w % 2 = 0) : 2 * w.tdiv 2 = w := by
  rw [Int.tdiv_eq_ediv hw (by decide)]
  omega

/-! ### C1 -/

/-- C1, counterexample: with root `(0,0,100,100)`, `maxRect = 1`, `maxLevel = 20`, the
single insert of `(5,5,1,1)` (inside the root bounds) returns and stores the item; the
query rectangle `(4,4,60,60)` overlaps it, and `getPossibleCollisions` returns the
empty list. -/
theorem getPossibleCollisions_misses_overlap :
    ∃ t, (construct ⟨0, 0, 100, 100⟩ 1 20).insert ⟨5, 5, 1, 1⟩ = some (.returned t)
      ∧ Rect.inside ⟨5, 5, 1, 1⟩ ⟨0, 0, 100, 100⟩ = true
      ∧ (⟨5, 5, 1, 1⟩ : Rect) ∈ t.allItems
      ∧ Rect.overlaps ⟨5, 5, 1, 1⟩ ⟨4, 4, 60, 60⟩ = true
      ∧ t.getPossibleCollisions [] ⟨4, 4, 60, 60⟩ true = .ok [] :=
  ⟨_, rfl, by decide, by decide, by decide, rfl⟩

/-- C1, amended: on every tree reachable by `insert` and `clear`, and for every query
rectangle, `getPossibleCollisions` returns without fault, and the items it returns are
exactly those held by the nodes on the descent path of the rectangle (the root, and
below every node that has children and where the rectangle maps to a quadrant, the path
of that child). Every stored item on that path is returned, overlapping or not; items
stored off the path are not. -/
theorem getPossibleCollisions_returns_queryPath (t : QuadTree) (h : Reachable t)
    (rect : Rect) :
    ∃ l, t.getPossibleCollisions [] rect true = .ok l
      ∧ ∀ r, r ∈ l ↔ OnQueryPath rect t r := by
  obtain ⟨l, hl, hmem⟩ := query_onPath rect t (reachable_inv h).1 []
  exact ⟨l, by simpa [getPossibleCollisions] using hl, hmem⟩

/-- C1, amended, at the tree left by inserting `(5,5,1,1)` into the root
`(0,0,100,100)` with `maxRect = 1`, queried with `(5,5,1,1)`. -/
theorem getPossibleCollisions_returns_queryPath_witness :
    ∃ t, (construct ⟨0, 0, 100, 100⟩ 1 20).insert ⟨5, 5, 1, 1⟩ = some (.returned t)
      ∧ ∃ l, t.getPossibleCollisions [] ⟨5, 5, 1, 1⟩ true = .ok l
        ∧ ∀ r, r ∈ l ↔ OnQueryPath ⟨5, 5, 1, 1⟩ t r :=
  ⟨_, rfl, getPossibleCollisions_returns_queryPath _
    (Reachable.insert ⟨5, 5, 1, 1⟩ (Reachable.construct ⟨0, 0, 100, 100⟩ 1 20) rfl) _⟩

/-! ### C2 -/

/-- C2, the code at the failing input: root `(0,0,100,100)`, `maxRect = 2`,
`maxLevel = 2`; the items `(50,25,2,2)` and `(24,24,2,2)` lie inside the root bounds and
both inserts return, the second moving both items into child 1; the query with the
rectangle `(50,25,2,2)` maps to no quadrant at the root and returns the empty list. -/
theorem inserted_item_not_returned :
    ∃ t, insertAll (construct ⟨0, 0, 100, 100⟩ 2 2) [⟨50, 25, 2, 2⟩, ⟨24, 24, 2, 2⟩]
          = some (.returned t)
      ∧ Rect.inside ⟨50, 25, 2, 2⟩ ⟨0, 0, 100, 100⟩ = true
      ∧ Rect.inside ⟨24, 24, 2, 2⟩ ⟨0, 0, 100, 100⟩ = true
      ∧ (⟨50, 25, 2, 2⟩ : Rect) ∈ t.allItems
      ∧ t.getPossibleCollisions [] ⟨50, 25, 2, 2⟩ true = .ok [] :=
  ⟨_, rfl, by decide, by decide, by decide, rfl⟩

/-! ### C3 -/

/-- C3: for every tree whose nodes have all four children or none (every tree a program
can hold, `reachable_inv`) and every item, when `insert` returns, the multiset of the
items stored over all nodes is the one before the call with one more copy of the item. -/
theorem insert_adds_one_item (t : QuadTree) (h : t.allOrNone = true) (nRect : Rect)
    (t' : QuadTree) (hins : t.insert nRect = some (.returned t')) :
    (↑t'.allItems : Multiset Rect) = nRect ::ₘ (↑t.allItems : Multiset Rect) := by
  rw [Multiset.cons_coe, Multiset.coe_eq_coe]
  exact insertAux_items _ t nRect t' h hins

/-- C3 at a split root holding the straddling item `(49,10,2,2)`: inserting `(5,5,1,1)`
returns after moving both items down, and the stored multiset gains just that item. -/
theorem insert_adds_one_item_witness :
    ((construct ⟨0, 0, 100, 100⟩ 1 20).withRects [⟨49, 10, 2, 2⟩]).split.allOrNone = true
      ∧ ∃ t', ((construct ⟨0, 0, 100, 100⟩ 1 20).withRects [⟨49, 10, 2, 2⟩]).split.insert
            ⟨5, 5, 1, 1⟩ = some (.returned t')
        ∧ (↑t'.allItems : Multiset Rect)
            = (⟨5, 5, 1, 1⟩ : Rect) ::ₘ
              (↑((construct ⟨0, 0, 100, 100⟩ 1 20).withRects
                  [⟨49, 10, 2, 2⟩]).split.allItems : Multiset Rect) :=
  ⟨rfl, _, rfl, insert_adds_one_item
    ((construct ⟨0, 0, 100, 100⟩ 1 20).withRects [⟨49, 10, 2, 2⟩]).split rfl
    ⟨5, 5, 1, 1⟩ _ rfl⟩

/-! ### C4 -/

/-- C4, the code at two failing inputs. On the root `(0,0,100,100)` with `maxRect = 1`
the insert of `(49,10,2,2)` returns and leaves the root split; the insert of
`(49,60,2,2)`, which straddles the vertical midline, then leaves by the
`std::out_of_range` of `_trees.at(-1)` (line 125). On the fresh root with the default
thresholds 5 and 20, the insert of `(60,60,1,1)` dereferences the null slot 3
(line 138). -/
theorem insert_throws_or_dereferences_null :
    (∃ t, (construct ⟨0, 0, 100, 100⟩ 1 20).insert ⟨49, 10, 2, 2⟩ = some (.returned t)
        ∧ t.hasChildren = true
        ∧ t.insert ⟨49, 60, 2, 2⟩ = some (.threw t))
      ∧ findRectanglePosition ⟨0, 0, 100, 100⟩ ⟨60, 60, 1, 1⟩ = 3
      ∧ (construct ⟨0, 0, 100, 100⟩ 5 20).insert ⟨60, 60, 1, 1⟩ = some .undefined :=
  ⟨⟨_, rfl, rfl, rfl⟩, by decide, rfl⟩

/-! ### C6 -/

/-- C6, the code at the failing input: on the root `(0,0,100,100)` with `maxRect = 1`,
the item `(49,10,2,2)` is stored at the root, which splits, and maps to no quadrant
there; the insert of `(5,5,1,1)` returns with the root holding no item and
`(49,10,2,2)` stored in the subtree of child 1. -/
theorem straddling_item_moved_into_child :
    ∃ t t' c, (construct ⟨0, 0, 100, 100⟩ 1 20).insert ⟨49, 10, 2, 2⟩ = some (.returned t)
      ∧ t.hasChildren = true
      ∧ t.rects = [⟨49, 10, 2, 2⟩]
      ∧ findRectanglePosition t.bounds ⟨49, 10, 2, 2⟩ = -1
      ∧ t.insert ⟨5, 5, 1, 1⟩ = some (.returned t')
      ∧ t'.rects = []
      ∧ t'.t1 = some c
      ∧ (⟨49, 10, 2, 2⟩ : Rect) ∈ c.allItems :=
  ⟨_, _, _, rfl, rfl, rfl, by decide, rfl, rfl, rfl, by decide⟩

/-! ### C7 -/

/-- C7, the code on the scenario: on the root `(0,0,100,100)` with `maxRect = 5` and
`maxLevel = 20`, the first insert, of `(5,5,1,1)`, maps to quadrant 1 of a node that has
no children and dereferences the null slot 1 (line 138); the sequence of five inserts
ends there. -/
theorem scenario_first_insert_undefined :
    findRectanglePosition ⟨0, 0, 100, 100⟩ ⟨5, 5, 1, 1⟩ = 1
      ∧ (construct ⟨0, 0, 100, 100⟩ 5 20).insert ⟨5, 5, 1, 1⟩ = some .undefined
      ∧ insertAll (construct ⟨0, 0, 100, 100⟩ 5 20)
          [⟨5, 5, 1, 1⟩, ⟨6, 6, 1, 1⟩, ⟨7, 7, 1, 1⟩, ⟨8, 8, 1, 1⟩, ⟨9, 9, 1, 1⟩]
          = some .undefined :=
  ⟨by decide, rfl, rfl⟩

/-! ### C8 -/

theorem levelInv_child {t c : QuadTree} {i : Int} (hc : t.treesAt i = some (some c))
    (h : t.levelInv = true) :
    c.level = t.level + 1 ∧ c.maxRect = t.maxRect ∧ c.maxLevel = t.maxLevel
      ∧ c.levelInv = true := by
  obtain ⟨a0, a1, a2, a3, r, b, l, m, ml⟩ := t
  rcases treesAt_some_cases hc with ⟨rfl, rfl⟩ | ⟨rfl, rfl⟩ | ⟨rfl, rfl⟩ | ⟨rfl, rfl⟩ <;>
    simp only [levelInv_mk, Bool.and_eq_true, Option.all_some, decide_eq_true_eq] at h <;>
    simp only [level, maxRect, maxLevel] <;> tauto

theorem levelInv_le {t : QuadTree} (h : t.levelInv = true) : t.level ≤ t.maxLevel := by
  obtain ⟨a0, a1, a2, a3, r, b, l, m, ml⟩ := t
  simp only [levelInv_mk, Bool.and_eq_true, decide_eq_true_eq] at h
  exact h.1.1.1.1

theorem isNode_inv {t n : QuadTree} (hn : IsNode t n)
    (h : t.allOrNone = true ∧ t.levelInv = true) :
    n.allOrNone = true ∧ n.levelInv = true := by
  induction hn with
  | root => exact h
  | child _ hc ih => exact ⟨allOrNone_child hc ih.1, (levelInv_child hc ih.2).2.2.2⟩

/-- C8: in every tree reachable from a constructed root by `insert` (returning or left
by a caught `std::out_of_range`) and `clear`, no node has a level above its `_maxLevel`,
and every child has its parent's level plus one and its parent's two thresholds. -/
theorem reachable_level_invariant (t : QuadTree) (h : Reachable t) (n : QuadTree)
    (hn : IsNode t n) :
    n.level ≤ n.maxLevel
      ∧ ∀ i c, n.treesAt i = some (some c) →
          c.level = n.level + 1 ∧ c.maxRect = n.maxRect ∧ c.maxLevel = n.maxLevel := by
  have hinv := (isNode_inv hn (reachable_inv h)).2
  refine ⟨levelInv_le hinv, ?_⟩
  intro i c hc
  have := levelInv_child hc hinv
  exact ⟨this.1, this.2.1, this.2.2.1⟩

/-- C8 at the node in slot 1 of the root `(0,0,100,100)`, `maxRect = 1`, `maxLevel = 20`,
after the insert of `(5,5,1,1)`, which splits three nodes in a row. -/
theorem reachable_level_invariant_witness :
    ∃ t n, (construct ⟨0, 0, 100, 100⟩ 1 20).insert ⟨5, 5, 1, 1⟩ = some (.returned t)
      ∧ t.treesAt 1 = some (some n)
      ∧ n.hasChildren = true
      ∧ n.level ≤ n.maxLevel
      ∧ ∀ i c, n.treesAt i = some (some c) →
          c.level = n.level + 1 ∧ c.maxRect = n.maxRect ∧ c.maxLevel = n.maxLevel :=
  ⟨_, _, rfl, rfl, rfl, reachable_level_invariant _
    (Reachable.insert ⟨5, 5, 1, 1⟩ (Reachable.construct ⟨0, 0, 100, 100⟩ 1 20) rfl) _
    (@IsNode.child _ _ _ 1 IsNode.root rfl)⟩

/-! ### C9 -/

theorem allOrNone_slots {t : QuadTree} (h : t.allOrNone = true) :
    (t.t0.isSome = true ∧ t.t1.isSome = true ∧ t.t2.isSome = true ∧ t.t3.isSome = true)
      ∨ (t.t0 = none ∧ t.t1 = none ∧ t.t2 = none ∧ t.t3 = none) := by
  obtain ⟨a0, a1, a2, a3, r, b, l, m, ml⟩ := t
  simp only [allOrNone_mk, Bool.and_eq_true, Bool.or_eq_true, Option.isNone_iff_eq_none] at h
  simp only [t0, t1, t2, t3]
  tauto

/-- C9: in every tree reachable from a constructed root by `insert` (returning or left
by a caught `std::out_of_range`) and `clear`, every node has its four slots all occupied
or all null, so the test of slot 0 (`hasChildren`) decides whether the node is split. -/
theorem reachable_all_or_none (t : QuadTree) (h : Reachable t) (n : QuadTree)
    (hn : IsNode t n) :
    (n.t0.isSome = true ∧ n.t1.isSome = true ∧ n.t2.isSome = true ∧ n.t3.isSome = true)
      ∨ (n.t0 = none ∧ n.t1 = none ∧ n.t2 = none ∧ n.t3 = none) :=
  allOrNone_slots (isNode_inv hn (reachable_inv h)).1

/-- C9 at the root left behind when, on the split root `(0,0,100,100)` holding
`(49,10,2,2)`, the insert of the straddling item `(49,60,2,2)` throws. -/
theorem reachable_all_or_none_witness :
    ∃ t t', (construct ⟨0, 0, 100, 100⟩ 1 20).insert ⟨49, 10, 2, 2⟩ = some (.returned t)
      ∧ t.insert ⟨49, 60, 2, 2⟩ = some (.threw t')
      ∧ ((t'.t0.isSome = true ∧ t'.t1.isSome = true ∧ t'.t2.isSome = true
            ∧ t'.t3.isSome = true)
          ∨ (t'.t0 = none ∧ t'.t1 = none ∧ t'.t2 = none ∧ t'.t3 = none)) :=
  ⟨_, _, rfl, rfl, reachable_all_or_none _
    (Reachable.insertThrew ⟨49, 60, 2, 2⟩
      (Reachable.insert ⟨49, 10, 2, 2⟩ (Reachable.construct ⟨0, 0, 100, 100⟩ 1 20) rfl) rfl)
    _ IsNode.root⟩

/-! ### C10 -/

/-- C10, counterexample: the node with bounds `(0,0,5,5)` is split into the four
rectangles `(2,0,2,2)`, `(0,0,2,2)`, `(0,2,2,2)`, `(2,2,2,2)`; the corner `(5,5)` of the
parent lies in none of them. -/
theorem split_leaves_gap :
    (construct ⟨0, 0, 5, 5⟩ 5 20).split.childBounds 0 = some ⟨2, 0, 2, 2⟩
      ∧ (construct ⟨0, 0, 5, 5⟩ 5 20).split.childBounds 1 = some ⟨0, 0, 2, 2⟩
      ∧ (construct ⟨0, 0, 5, 5⟩ 5 20).split.childBounds 2 = some ⟨0, 2, 2, 2⟩
      ∧ (construct ⟨0, 0, 5, 5⟩ 5 20).split.childBounds 3 = some ⟨2, 2, 2, 2⟩
      ∧ Rect.covers ⟨0, 0, 5, 5⟩ 5 5
      ∧ ¬ Rect.covers ⟨2, 0, 2, 2⟩ 5 5 ∧ ¬ Rect.covers ⟨0, 0, 2, 2⟩ 5 5
      ∧ ¬ Rect.covers ⟨0, 2, 2, 2⟩ 5 5 ∧ ¬ Rect.covers ⟨2, 2, 2, 2⟩ 5 5 := by
  refine ⟨rfl, rfl, rfl, rfl, ?_, ?_, ?_, ?_, ?_⟩ <;> norm_num [Rect.covers]

/-- C10, amended: for a node with bounds `(x, y, w, h)`, `0 ≤ w`, `0 ≤ h`, `split` builds
in slots 0..3 the rectangles `(x+w/2, y, w/2, h/2)`, `(x, y, w/2, h/2)`,
`(x, y+h/2, w/2, h/2)`, `(x+w/2, y+h/2, w/2, h/2)` (integer halving); no two of them
share an interior point; their union is the rectangle `(x, y, 2*(w/2), 2*(h/2))`, which
is the parent's rectangle when `w` and `h` are even. -/
theorem split_quarters (t : QuadTree) (hw : 0 ≤ t.bounds.width) (hh : 0 ≤ t.bounds.height) :
    t.split.childBounds 0 = some ⟨t.bounds.x + t.bounds.width.tdiv 2, t.bounds.y,
        t.bounds.width.tdiv 2, t.bounds.height.tdiv 2⟩
      ∧ t.split.childBounds 1 = some ⟨t.bounds.x, t.bounds.y,
        t.bounds.width.tdiv 2, t.bounds.height.tdiv 2⟩
      ∧ t.split.childBounds 2 = some ⟨t.bounds.x, t.bounds.y + t.bounds.height.tdiv 2,
        t.bounds.width.tdiv 2, t.bounds.height.tdiv 2⟩
      ∧ t.split.childBounds 3 = some ⟨t.bounds.x + t.bounds.width.tdiv 2,
        t.bounds.y + t.bounds.height.tdiv 2, t.bounds.width.tdiv 2, t.bounds.height.tdiv 2⟩
      ∧ (∀ i j ri rj, i ≠ j → t.split.childBounds i = some ri →
          t.split.childBounds j = some rj →
          ∀ px py, ¬ (ri.interior px py ∧ rj.interior px py))
      ∧ (∀ px py, (∃ i r, t.split.childBounds i = some r ∧ r.covers px py)
          ↔ Rect.covers ⟨t.bounds.x, t.bounds.y, 2 * t.bounds.width.tdiv 2,
              2 * t.bounds.height.tdiv 2⟩ px py)
      ∧ (t.bounds.width % 2 = 0 → t.bounds.height % 2 = 0 →
          ∀ px py, (∃ i r, t.split.childBounds i = some r ∧ r.covers px py)
            ↔ t.bounds.covers px py) := by
  obtain ⟨a0, a1, a2, a3, rs, ⟨x, y, w, h⟩, l, m, ml⟩ := t
  simp only [bounds] at hw hh ⊢
  refine ⟨rfl, rfl, rfl, rfl, ?_, ?_, ?_⟩
  · intro i j ri rj hij hi hj px py
    exact split_interiors_disjoint hw hh hij hi hj px py
  · intro px py
    exact split_union hw hh px py
  · intro ew eh px py
    rw [split_union hw hh px py, two_mul_tdiv_two hw ew, two_mul_tdiv_two hh eh]

/-- C10, amended, at the root `(0,0,100,100)`. -/
theorem split_quarters_witness :
    (0 : Int) ≤ (construct ⟨0, 0, 100, 100⟩ 5 20).bounds.width
      ∧ (0 : Int) ≤ (construct ⟨0, 0, 100, 100⟩ 5 20).bounds.height
      ∧ (construct ⟨0, 0, 100, 100⟩ 5 20).split.childBounds 0 = some ⟨50, 0, 50, 50⟩
      ∧ (construct ⟨0, 0, 100, 100⟩ 5 20).split.childBounds 3 = some ⟨50, 50, 50, 50⟩
      ∧ (∀ px py, (∃ i r, (construct ⟨0, 0, 100, 100⟩ 5 20).split.childBounds i = some r
            ∧ r.covers px py) ↔ Rect.covers ⟨0, 0, 100, 100⟩ px py) :=
  ⟨by decide, by decide,
    (split_quarters (construct ⟨0, 0, 100, 100⟩ 5 20) (by decide) (by decide)).1,
    (split_quarters (construct ⟨0, 0, 100, 100⟩ 5 20) (by decide) (by decide)).2.2.2.1,
    (split_quarters (construct ⟨0, 0, 100, 100⟩ 5 20) (by decide) (by decide)).2.2.2.2.2.2
      (by decide) (by decide)⟩

/-! ### C13 -/

/-- C13: with `top`, `bottom`, `left`, `right` as the claim defines them against the
midlines, `findRectanglePosition` returns 0 exactly for right and top, 1 for left and
top, 2 for left and bottom, 3 for right and bottom, and `-1` exactly when none of the
four holds; its value is one of `-1, 0, 1, 2, 3`. -/
theorem findRectanglePosition_quadrants (bounds nRect : Rect) :
    (findRectanglePosition bounds nRect = 0 ↔ nRect.isRightOf bounds ∧ nRect.isTopOf bounds)
      ∧ (findRectanglePosition bounds nRect = 1
          ↔ nRect.isLeftOf bounds ∧ nRect.isTopOf bounds)
      ∧ (findRectanglePosition bounds nRect = 2
          ↔ nRect.isLeftOf bounds ∧ nRect.isBottomOf bounds)
      ∧ (findRectanglePosition bounds nRect = 3
          ↔ nRect.isRightOf bounds ∧ nRect.isBottomOf bounds)
      ∧ (findRectanglePosition bounds nRect = -1
          ↔ ¬ (nRect.isRightOf bounds ∧ nRect.isTopOf bounds)
            ∧ ¬ (nRect.isLeftOf bounds ∧ nRect.isTopOf bounds)
            ∧ ¬ (nRect.isLeftOf bounds ∧ nRect.isBottomOf bounds)
            ∧ ¬ (nRect.isRightOf bounds ∧ nRect.isBottomOf bounds))
      ∧ (findRectanglePosition bounds nRect = -1 ∨ findRectanglePosition bounds nRect = 0
          ∨ findRectanglePosition bounds nRect = 1 ∨ findRectanglePosition bounds nRect = 2
          ∨ findRectanglePosition bounds nRect = 3) := by
  refine ⟨?_, ?_, ?_, ?_, ?_, findRectanglePosition_range bounds nRect⟩ <;>
    (simp only [findRectanglePosition, Rect.isRightOf, Rect.isLeftOf, Rect.isTopOf,
       Rect.isBottomOf, Rect.xMid, Rect.yMid, Bool.and_eq_true, decide_eq_true_eq, gt_iff_lt]
     generalize bounds.x + bounds.width.tdiv 2 = xm
     generalize bounds.y + bounds.height.tdiv 2 = ym
     split_ifs <;> constructor <;> intro hx <;> first | omega | exact hx.elim)

/-! ### C14 -/

/-- C14: an item whose x-extent touches or crosses the vertical midline
(`x ≤ xMid ≤ x + w`), or whose y-extent touches or crosses the horizontal midline
(`y ≤ yMid ≤ y + h`), maps to no quadrant: `findRectanglePosition` returns `-1`. Either
condition already forces the width, respectively the height, to be non-negative. -/
theorem findRectanglePosition_straddling (bounds nRect : Rect)
    (h : (nRect.x ≤ bounds.xMid ∧ bounds.xMid ≤ nRect.x + nRect.width)
      ∨ (nRect.y ≤ bounds.yMid ∧ bounds.yMid ≤ nRect.y + nRect.height)) :
    findRectanglePosition bounds nRect = -1 := by
  simp only [Rect.xMid, Rect.yMid] at h
  simp only [findRectanglePosition, Bool.and_eq_true, decide_eq_true_eq, gt_iff_lt]
  generalize bounds.x + bounds.width.tdiv 2 = xm at h ⊢
  generalize bounds.y + bounds.height.tdiv 2 = ym at h ⊢
  split_ifs <;> omega

/-- C14 at the root `(0,0,100,100)`: the item `(49,10,2,2)` crosses the vertical
midline `x = 50`, and the item `(50,10,2,2)` has its left edge on it. -/
theorem findRectanglePosition_straddling_witness :
    findRectanglePosition ⟨0, 0, 100, 100⟩ ⟨49, 10, 2, 2⟩ = -1
      ∧ findRectanglePosition ⟨0, 0, 100, 100⟩ ⟨50, 10, 2, 2⟩ = -1 :=
  ⟨findRectanglePosition_straddling ⟨0, 0, 100, 100⟩ ⟨49, 10, 2, 2⟩
      (Or.inl (by decide)),
    findRectanglePosition_straddling ⟨0, 0, 100, 100⟩ ⟨50, 10, 2, 2⟩
      (Or.inl (by decide))⟩

theorem query_step (t : QuadTree) (out : List Rect) (rect : Rect) :
    t._getPossibleCollisions out rect =
      if findRectanglePosition t.bounds rect ≠ -1 ∧ t.hasChildren = true then
        match t.treesAt (findRectanglePosition t.bounds rect) with
        | none => .error .outOfRange
        | some none => .error .nullDeref
        | some (some c) =>
          match c._getPossibleCollisions out rect with
          | .error e => .error e
          | .ok o => .ok (o ++ t.rects)
      else .ok (out ++ t.rects) := by
  by_cases hd : findRectanglePosition t.bounds rect ≠ -1 ∧ t.hasChildren = true
  · rw [if_pos hd]
    cases hc : t.treesAt (findRectanglePosition t.bounds rect) with
    | none =>
      exfalso
      rcases findRectanglePosition_range t.bounds rect with h | h | h | h | h
      · exact hd.1 h
      all_goals (rw [h] at hc; simp [treesAt] at hc)
    | some s =>
      cases s with
      | some c => exact query_descend hd.1 hd.2 hc out
      | none =>
        obtain ⟨a0, a1, a2, a3, r, b, l, m, ml⟩ := t
        simp only [bounds, hasChildren, t0] at hd hc
        rw [_getPossibleCollisions_mk, if_pos hd]
        simp only [treesAt, t0, t1, t2, t3] at hc
        split_ifs at hc ⊢ with h0 h1 h2 h3 <;>
          simp only [Option.some.injEq, reduceCtorEq] at hc <;> subst hc <;> rfl
  · rw [if_neg hd]
    exact query_stop hd out

theorem query_append (rect : Rect) : ∀ (t : QuadTree) (out : List Rect),
    t._getPossibleCollisions out rect =
      match t._getPossibleCollisions [] rect with
      | .error e => .error e
      | .ok fresh => .ok (out ++ fresh) := by
  intro t
  induction t using induct with
  | h t ih =>
    intro out
    rw [query_step t out, query_step t []]
    by_cases hd : findRectanglePosition t.bounds rect ≠ -1 ∧ t.hasChildren = true
    · simp only [if_pos hd]
      cases hc : t.treesAt (findRectanglePosition t.bounds rect) with
      | none => rfl
      | some s =>
        cases s with
        | none => rfl
        | some c =>
          simp only []
          rw [ih _ c hc out]
          cases c._getPossibleCollisions [] rect with
          | error e => rfl
          | ok fresh => simp
    · simp only [if_neg hd, List.nil_append]

theorem height_mk (a0 a1 a2 a3 : Option QuadTree) (r : List Rect) (b : Rect)
    (l m ml : Nat) :
    (mk a0 a1 a2 a3 r b l m ml).height =
      1 + max (max (a0.elim 0 height) (a1.elim 0 height))
              (max (a2.elim 0 height) (a3.elim 0 height)) := by
  cases a0 <;> cases a1 <;> cases a2 <;> cases a3 <;> rfl

theorem height_pos (t : QuadTree) : 1 ≤ t.height := by
  obtain ⟨a0, a1, a2, a3, r, b, l, m, ml⟩ := t
  simp only [height_mk]
  omega

theorem height_child {t c : QuadTree} {i : Int} (hc : t.treesAt i = some (some c)) :
    c.height + 1 ≤ t.height := by
  obtain ⟨a0, a1, a2, a3, r, b, l, m, ml⟩ := t
  rcases treesAt_some_cases hc with ⟨rfl, rfl⟩ | ⟨rfl, rfl⟩ | ⟨rfl, rfl⟩ | ⟨rfl, rfl⟩ <;>
    simp only [height_mk, Option.elim_some] <;> omega

theorem queryAux_eq : ∀ (fuel : Nat) (t : QuadTree) (out : List Rect) (rect : Rect),
    t.height ≤ fuel → queryAux fuel t out rect = some (t._getPossibleCollisions out rect) := by
  intro fuel
  induction fuel with
  | zero => intro t out rect h; have := height_pos t; omega
  | succ fuel ih =>
    intro t out rect h
    rw [query_step t out, queryAux]
    by_cases hd : findRectanglePosition t.bounds rect ≠ -1 ∧ t.hasChildren = true
    · simp only [if_pos hd]
      cases hc : t.treesAt (findRectanglePosition t.bounds rect) with
      | none => rfl
      | some s =>
        cases s with
        | none => rfl
        | some c =>
          have := height_child hc
          simp only []
          rw [ih c out rect (by omega)]
          cases c._getPossibleCollisions out rect <;> rfl
    · simp only [if_neg hd]

theorem query_ok_of_allOrNone {t : QuadTree} (h : t.allOrNone = true) (out : List Rect)
    (rect : Rect) : ∃ fresh, t._getPossibleCollisions out rect = .ok (out ++ fresh)
      ∧ t._getPossibleCollisions [] rect = .ok fresh := by
  obtain ⟨fresh, hf, _⟩ := query_onPath rect t h []
  refine ⟨fresh, ?_, by simpa using hf⟩
  rw [query_append rect t out, hf]
  rfl

theorem depthBound_le_of_levelInv : ∀ t : QuadTree, t.levelInv = true →
    t.depthBound ≤ t.maxLevel - t.level + 1 := by
  intro t
  induction t using induct with
  | h t ih =>
    intro ht
    have hle := levelInv_le ht
    have hslot : ∀ i c, t.treesAt i = some (some c) → c.depthBound ≤ t.maxLevel - t.level := by
      intro i c hc
      obtain ⟨h1, _, h3, h4⟩ := levelInv_child hc ht
      have := ih i c hc h4
      have := levelInv_le h4
      omega
    obtain ⟨a0, a1, a2, a3, r, b, l, m, ml⟩ := t
    simp only [level, maxLevel] at hslot hle ⊢
    have h0 : a0.elim 0 depthBound ≤ ml - l := by
      cases a0 with
      | none => simp
      | some c => exact hslot 0 c rfl
    have h1 : a1.elim 0 depthBound ≤ ml - l := by
      cases a1 with
      | none => simp
      | some c => exact hslot 1 c rfl
    have h2 : a2.elim 0 depthBound ≤ ml - l := by
      cases a2 with
      | none => simp
      | some c => exact hslot 2 c rfl
    have h3 : a3.elim 0 depthBound ≤ ml - l := by
      cases a3 with
      | none => simp
      | some c => exact hslot 3 c rfl
    rw [depthBound_mk]
    omega

/-! ### C12 -/

/-- C12: for every tree, rectangle and prior output vector, the query with
`clear = true` is the query on an empty vector, and the query with `clear = false` is
the prior vector followed by that fresh result (a fault of the fresh query is the same
fault); on a tree whose nodes have all four children or none, the fresh query returns a
list `fresh` and the accumulating query returns `out ++ fresh`. -/
theorem getPossibleCollisions_clear_flag (t : QuadTree) (rect : Rect) (out : List Rect) :
    t.getPossibleCollisions out rect true = t.getPossibleCollisions [] rect true
      ∧ t.getPossibleCollisions out rect false
          = (match t.getPossibleCollisions [] rect true with
             | .error e => .error e
             | .ok fresh => .ok (out ++ fresh))
      ∧ (t.allOrNone = true →
          ∃ fresh, t.getPossibleCollisions [] rect true = .ok fresh
            ∧ t.getPossibleCollisions out rect true = .ok fresh
            ∧ t.getPossibleCollisions out rect false = .ok (out ++ fresh)) := by
  refine ⟨rfl, ?_, ?_⟩
  · simp only [getPossibleCollisions, if_true]
    exact query_append rect t out
  · intro h
    obtain ⟨fresh, h1, h2⟩ := query_ok_of_allOrNone h out rect
    exact ⟨fresh, by simpa [getPossibleCollisions] using h2,
      by simpa [getPossibleCollisions] using h2, by simpa [getPossibleCollisions] using h1⟩

/-! ### C18 -/

/-- C18: on a tree whose nodes have all four children or none (every tree a program can
hold), the fresh query at a node that has children and where the rectangle maps to a
quadrant is the fresh query at that one child followed by the node's own items in
stored order; at every other node it is exactly the node's own items; and the items
stored at the node queried are in every result. -/
theorem getPossibleCollisions_one_child (t : QuadTree) (h : t.allOrNone = true)
    (rect : Rect) :
    (findRectanglePosition t.bounds rect ≠ -1 ∧ t.hasChildren = true →
        ∃ c below, t.treesAt (findRectanglePosition t.bounds rect) = some (some c)
          ∧ c.getPossibleCollisions [] rect true = .ok below
          ∧ t.getPossibleCollisions [] rect true = .ok (below ++ t.rects))
      ∧ (¬ (findRectanglePosition t.bounds rect ≠ -1 ∧ t.hasChildren = true) →
          t.getPossibleCollisions [] rect true = .ok t.rects)
      ∧ (∃ l, t.getPossibleCollisions [] rect true = .ok l ∧ ∀ r ∈ t.rects, r ∈ l) := by
  refine ⟨?_, ?_, ?_⟩
  · intro hd
    have hr : findRectanglePosition t.bounds rect = 0 ∨ findRectanglePosition t.bounds rect = 1
        ∨ findRectanglePosition t.bounds rect = 2 ∨ findRectanglePosition t.bounds rect = 3 := by
      rcases findRectanglePosition_range t.bounds rect with h | h
      · exact absurd h hd.1
      · exact h
    obtain ⟨c, hc⟩ := treesAt_of_allOrNone h hd.2 hr
    obtain ⟨below, _, hb⟩ := query_ok_of_allOrNone (allOrNone_child hc h) [] rect
    refine ⟨c, below, hc, by simpa [getPossibleCollisions] using hb, ?_⟩
    simp only [getPossibleCollisions, if_true]
    rw [query_descend hd.1 hd.2 hc, hb]
  · intro hd
    simp only [getPossibleCollisions, if_true]
    rw [query_stop hd]
    rfl
  · obtain ⟨l, hl, hmem⟩ := query_onPath rect t h []
    exact ⟨l, by simpa [getPossibleCollisions] using hl,
      fun r hr => (hmem r).mpr (OnQueryPath.atNode hr)⟩

/-- C18 at the root `(0,0,100,100)`, `maxRect = 1`, split and holding `(49,10,2,2)`. -/
theorem getPossibleCollisions_one_child_witness :
    ((construct ⟨0, 0, 100, 100⟩ 1 20).withRects [⟨49, 10, 2, 2⟩]).split.allOrNone = true
      ∧ ((construct ⟨0, 0, 100, 100⟩ 1 20).withRects
            [⟨49, 10, 2, 2⟩]).split.getPossibleCollisions [] ⟨5, 5, 1, 1⟩ true
          = .ok [⟨49, 10, 2, 2⟩]
      ∧ ∃ l, ((construct ⟨0, 0, 100, 100⟩ 1 20).withRects
            [⟨49, 10, 2, 2⟩]).split.getPossibleCollisions [] ⟨5, 5, 1, 1⟩ true = .ok l
          ∧ ∀ r ∈ ((construct ⟨0, 0, 100, 100⟩ 1 20).withRects [⟨49, 10, 2, 2⟩]).split.rects,
              r ∈ l :=
  ⟨rfl, rfl, (getPossibleCollisions_one_child
    ((construct ⟨0, 0, 100, 100⟩ 1 20).withRects [⟨49, 10, 2, 2⟩]).split rfl
    ⟨5, 5, 1, 1⟩).2.2⟩

/-! ### C19 -/

/-- C19: on a tree that satisfies the level invariant, `insert` run with the recursion
into children bounded by `_maxLevel - _level + 1` ends in an outcome, the one of
`insert` (the loop `rescan` is a recursion on the remaining items, one per round); and
the query run with the recursion bounded by the height of the tree gives the result of
the query. -/
theorem insert_and_query_depth_bounded (t : QuadTree) (h : t.levelInv = true)
    (nRect rect : Rect) (out : List Rect) :
    (∃ o, insertAux (t.maxLevel - t.level + 1) t nRect = some o ∧ t.insert nRect = some o)
      ∧ queryAux t.height t out rect = some (t._getPossibleCollisions out rect) := by
  refine ⟨?_, queryAux_eq _ t out rect (le_refl _)⟩
  obtain ⟨o, ho⟩ := insertAux_total _ t nRect (depthBound_le_of_levelInv t h)
  exact ⟨o, ho, insert_eq_of_insertAux ho⟩

/-- C19 at the root `(0,0,100,100)`, `maxRect = 1`, `maxLevel = 3` (recursion bound 4),
for the insert of `(5,5,1,1)`, which ends three levels down. -/
theorem insert_and_query_depth_bounded_witness :
    (construct ⟨0, 0, 100, 100⟩ 1 3).levelInv = true
      ∧ (∃ o, insertAux 4 (construct ⟨0, 0, 100, 100⟩ 1 3) ⟨5, 5, 1, 1⟩ = some o
          ∧ (construct ⟨0, 0, 100, 100⟩ 1 3).insert ⟨5, 5, 1, 1⟩ = some o)
      ∧ queryAux 1 (construct ⟨0, 0, 100, 100⟩ 1 3) [] ⟨5, 5, 1, 1⟩
          = some ((construct ⟨0, 0, 100, 100⟩ 1 3)._getPossibleCollisions [] ⟨5, 5, 1, 1⟩) :=
  ⟨rfl, insert_and_query_depth_bounded (construct ⟨0, 0, 100, 100⟩ 1 3) rfl
    ⟨5, 5, 1, 1⟩ ⟨5, 5, 1, 1⟩ []⟩

/-! ### C20 -/

/-- C20: on a tree whose nodes have all four children or none, the query returns a list
for every rectangle, output vector and `clear` flag, without fault; at every node where
the guard of line 93 holds, the index is one of `0..3` and the slot it names is
occupied. -/
theorem getPossibleCollisions_never_faults (t : QuadTree) (h : t.allOrNone = true)
    (rect : Rect) (out : List Rect) (clear : Bool) :
    (∃ l, t.getPossibleCollisions out rect clear = .ok l)
      ∧ ∀ n, IsNode t n →
          findRectanglePosition n.bounds rect ≠ -1 ∧ n.hasChildren = true →
          (findRectanglePosition n.bounds rect = 0 ∨ findRectanglePosition n.bounds rect = 1
            ∨ findRectanglePosition n.bounds rect = 2
            ∨ findRectanglePosition n.bounds rect = 3)
          ∧ ∃ c, n.treesAt (findRectanglePosition n.bounds rect) = some (some c) := by
  constructor
  · obtain ⟨fresh, h1, _⟩ := query_ok_of_allOrNone h (if clear = true then [] else out) rect
    exact ⟨_, h1⟩
  · intro n hn hd
    have hr : findRectanglePosition n.bounds rect = 0 ∨ findRectanglePosition n.bounds rect = 1
        ∨ findRectanglePosition n.bounds rect = 2 ∨ findRectanglePosition n.bounds rect = 3 := by
      rcases findRectanglePosition_range n.bounds rect with h | h
      · exact absurd h hd.1
      · exact h
    have hA : n.allOrNone = true := by
      clear hd hr
      induction hn with
      | root => exact h
      | child _ hc ih => exact allOrNone_child hc ih
    exact ⟨hr, treesAt_of_allOrNone hA hd.2 hr⟩

/-- C20 at the tree left by inserting `(5,5,1,1)` into the root `(0,0,100,100)` with
`maxRect = 1`: the query with `(5,5,1,1)` descends three levels. -/
theorem getPossibleCollisions_never_faults_witness :
    ∃ t, (construct ⟨0, 0, 100, 100⟩ 1 20).insert ⟨5, 5, 1, 1⟩ = some (.returned t)
      ∧ t.allOrNone = true
      ∧ t.getPossibleCollisions [] ⟨5, 5, 1, 1⟩ true = .ok [⟨5, 5, 1, 1⟩]
      ∧ ∃ l, t.getPossibleCollisions [⟨1, 1, 1, 1⟩] ⟨5, 5, 1, 1⟩ false = .ok l := by
  refine ⟨_, rfl, rfl, rfl, ?_⟩
  refine (getPossibleCollisions_never_faults _ ?_ ⟨5, 5, 1, 1⟩ [⟨1, 1, 1, 1⟩] false).1
  rfl

theorem insertAll_inv : ∀ (items : List Rect) (t t' : QuadTree), t.allOrNone = true →
    insertAll t items = some (.returned t') →
    t'.bounds = t.bounds ∧ ∀ r ∈ t'.allItems, r ∈ items ∨ r ∈ t.allItems := by
  intro items
  induction items with
  | nil =>
    intro t t' _ h
    simp only [insertAll, Option.some.injEq, Outcome.returned.injEq] at h
    subst h
    exact ⟨rfl, fun r hr => Or.inr hr⟩
  | cons x rest ih =>
    intro t t' ht h
    simp only [insertAll] at h
    cases hx : t.insert x with
    | none => simp [hx] at h
    | some o =>
      cases o with
      | returned t1 =>
        simp only [hx] at h
        have hk : Kept t t1 := insertAux_rel kept_stable _ _ _ _ hx
        have hp := insertAux_items _ t x t1 ht hx
        obtain ⟨hb, hmem⟩ := ih t1 t' (hk.2.2.2.2.1 ht) h
        refine ⟨hb.trans hk.2.2.2.1, ?_⟩
        intro r hr
        rcases hmem r hr with h1 | h1
        · exact Or.inl (List.mem_cons_of_mem _ h1)
        · rcases List.mem_cons.mp (hp.mem_iff.mp h1) with h2 | h2
          · exact Or.inl (h2 ▸ List.mem_cons_self _ _)
          · exact Or.inr h2
      | threw t1 => simp [hx] at h
      | undefined => simp [hx] at h

theorem inside_quadrant (n : QuadTree) (r : Rect) (q : Int) (c : Rect)
    (hrw : 0 ≤ r.width) (hrh : 0 ≤ r.height)
    (hew : n.bounds.width % 2 = 0) (heh : n.bounds.height % 2 = 0)
    (hin : r.inside n.bounds = true) (hq : findRectanglePosition n.bounds r = q)
    (hc : n.split.childBounds q = some c) : r.inside c = true := by
  obtain ⟨a0, a1, a2, a3, rs, ⟨x, y, w, h⟩, l, m, ml⟩ := n
  obtain ⟨rx, ry, rw, rh⟩ := r
  simp only [bounds, Rect.inside, Bool.and_eq_true, decide_eq_true_eq] at hrw hrh hew heh hin hq
  have hw0 : 0 ≤ w := by omega
  have hh0 : 0 ≤ h := by omega
  have hw2 : w.tdiv 2 = w / 2 := Int.tdiv_eq_ediv hw0 (by decide)
  have hh2 : h.tdiv 2 = h / 2 := Int.tdiv_eq_ediv hh0 (by decide)
  simp only [findRectanglePosition, Bool.and_eq_true, decide_eq_true_eq, gt_iff_lt, hw2,
    hh2] at hq
  rcases childBounds_split_cases hc with ⟨rfl, rfl⟩ | ⟨rfl, rfl⟩ | ⟨rfl, rfl⟩ | ⟨rfl, rfl⟩ <;>
    simp only [Rect.inside, Bool.and_eq_true, decide_eq_true_eq, hw2, hh2] <;>
    split_ifs at hq <;> omega

/-! ### C11 -/

/-- Integer halving of an odd size alone already lets an item leave its child: on the
root `(0,0,5,5)` with `maxRect = 1`, `maxLevel = 1`, the insert of `(3,3,2,2)`, inside
the root bounds, returns with the item stored in child 3, whose bounds `(2,2,2,2)` do
not contain it. -/
theorem item_outside_child_bounds :
    ∃ t c, (construct ⟨0, 0, 5, 5⟩ 1 1).insert ⟨3, 3, 2, 2⟩ = some (.returned t)
      ∧ Rect.inside ⟨3, 3, 2, 2⟩ ⟨0, 0, 5, 5⟩ = true
      ∧ t.t3 = some c
      ∧ c.bounds = ⟨2, 2, 2, 2⟩
      ∧ c.rects = [⟨3, 3, 2, 2⟩]
      ∧ Rect.inside ⟨3, 3, 2, 2⟩ c.bounds = false :=
  ⟨_, _, rfl, by decide, rfl, rfl, rfl, by decide⟩

/-- C11, the code at the failing input: on the root `(0,0,128,128)` with `maxRect = 1`,
`maxLevel = 20`, where every halving is exact, the items `(63,10,2,2)` and `(5,5,1,1)`
have non-negative size and lie inside the root bounds, and both inserts return. The
first item straddles the midline `x = 64` and is stored at the root; the second insert
moves it into child 1 along with the new item (line 134 takes the index of the new
item). It ends stored below child 1, whose bounds `(0,0,64,64)` do not contain it. -/
theorem dragged_item_outside_child_bounds :
    ∃ t c,
      insertAll (construct ⟨0, 0, 128, 128⟩ 1 20) [⟨63, 10, 2, 2⟩, ⟨5, 5, 1, 1⟩]
          = some (.returned t)
      ∧ Rect.inside ⟨63, 10, 2, 2⟩ ⟨0, 0, 128, 128⟩ = true
      ∧ Rect.inside ⟨5, 5, 1, 1⟩ ⟨0, 0, 128, 128⟩ = true
      ∧ findRectanglePosition ⟨0, 0, 128, 128⟩ ⟨63, 10, 2, 2⟩ = -1
      ∧ t.t1 = some c
      ∧ c.bounds = ⟨0, 0, 64, 64⟩
      ∧ (⟨63, 10, 2, 2⟩ : Rect) ∈ c.allItems
      ∧ Rect.inside ⟨63, 10, 2, 2⟩ c.bounds = false :=
  ⟨_, _, rfl, by decide, by decide, by decide, rfl, rfl, by decide, by decide⟩

/-! ### C15 -/

/-- C15, the code at the failing input: the root `(0,0,100,100)` with `maxRect = 1` is
split and holds the straddling item `(10,49,2,2)`; the item `(70,70,1,1)` maps to
quadrant 3. Inserting it into the old child 3 alone returns a node holding just that
item; inserting it into the root returns with the root's own collection emptied and
child 3 holding both items. -/
theorem insert_into_split_node_moves_own_items :
    ∃ t c c1 t' c',
      (construct ⟨0, 0, 100, 100⟩ 1 20).insert ⟨10, 49, 2, 2⟩ = some (.returned t)
      ∧ t.hasChildren = true
      ∧ t.rects = [⟨10, 49, 2, 2⟩]
      ∧ findRectanglePosition t.bounds ⟨70, 70, 1, 1⟩ = 3
      ∧ t.t3 = some c
      ∧ c.insert ⟨70, 70, 1, 1⟩ = some (.returned c1)
      ∧ c1.allItems = [⟨70, 70, 1, 1⟩]
      ∧ t.insert ⟨70, 70, 1, 1⟩ = some (.returned t')
      ∧ t'.rects = []
      ∧ t'.t3 = some c'
      ∧ c'.allItems = [⟨10, 49, 2, 2⟩, ⟨70, 70, 1, 1⟩] :=
  ⟨_, _, _, _, _, rfl, rfl, rfl, by decide, rfl, rfl, rfl, rfl, rfl, rfl, rfl⟩

/-! ### C17 -/

/-- C17, the code at two failing inputs, both on a node without children and without a
split being triggered. The fresh root `(0,0,100,100)` with `maxRect = 5` is below its
capacity; the item `(70,20,1,1)` maps to quadrant 0 and the insert dereferences the
null slot 0 (line 138). The fresh root with `maxRect = 1`, `maxLevel = 0` is at its
maximal level; the item `(5,5,1,1)` maps to quadrant 1 and the insert dereferences the
null slot 1. -/
theorem insert_without_split_dereferences_null :
    (construct ⟨0, 0, 100, 100⟩ 5 20).hasChildren = false
      ∧ findRectanglePosition ⟨0, 0, 100, 100⟩ ⟨70, 20, 1, 1⟩ = 0
      ∧ (construct ⟨0, 0, 100, 100⟩ 5 20).insert ⟨70, 20, 1, 1⟩ = some .undefined
      ∧ (construct ⟨0, 0, 100, 100⟩ 1 0).hasChildren = false
      ∧ ¬ ((construct ⟨0, 0, 100, 100⟩ 1 0).level < (construct ⟨0, 0, 100, 100⟩ 1 0).maxLevel)
      ∧ (construct ⟨0, 0, 100, 100⟩ 1 0).insert ⟨5, 5, 1, 1⟩ = some .undefined :=
  ⟨rfl, by decide, rfl, rfl, by decide, rfl⟩

/-- The part of the placement invariant that concerns the slots of a node. -/
theorem placedInv_iff (t : QuadTree) :
    t.placedInv = true ↔
      (∀ x ∈ t.rects, findRectanglePosition t.bounds x = -1)
      ∧ ∀ i c, t.treesAt i = some (some c) →
          (∀ x ∈ c.allItems, findRectanglePosition t.bounds x = i
            ∨ findRectanglePosition t.bounds x = -1)
          ∧ c.placedInv = true := by
  obtain ⟨a0, a1, a2, a3, r, b, l, m, ml⟩ := t
  have hmk : (mk a0 a1 a2 a3 r b l m ml).placedInv =
      (r.all (fun x => decide (findRectanglePosition b x = -1))
      && a0.all (fun c => (c.allItems.all fun x => decide (findRectanglePosition b x = 0)
            || decide (findRectanglePosition b x = -1)) && placedInv c)
      && a1.all (fun c => (c.allItems.all fun x => decide (findRectanglePosition b x = 1)
            || decide (findRectanglePosition b x = -1)) && placedInv c)
      && a2.all (fun c => (c.allItems.all fun x => decide (findRectanglePosition b x = 2)
            || decide (findRectanglePosition b x = -1)) && placedInv c)
      && a3.all (fun c => (c.allItems.all fun x => decide (findRectanglePosition b x = 3)
            || decide (findRectanglePosition b x = -1)) && placedInv c)) := by
    cases a0 <;> cases a1 <;> cases a2 <;> cases a3 <;> rfl
  rw [hmk]
  simp only [Bool.and_eq_true, List.all_eq_true, decide_eq_true_eq, Bool.or_eq_true, rects,
    bounds]
  constructor
  · rintro ⟨⟨⟨⟨hr, h0⟩, h1⟩, h2⟩, h3⟩
    refine ⟨hr, ?_⟩
    intro i c hc
    rcases treesAt_some_cases hc with ⟨rfl, rfl⟩ | ⟨rfl, rfl⟩ | ⟨rfl, rfl⟩ | ⟨rfl, rfl⟩
    · simpa using h0
    · simpa using h1
    · simpa using h2
    · simpa using h3
  · rintro ⟨hr, hs⟩
    refine ⟨⟨⟨⟨hr, ?_⟩, ?_⟩, ?_⟩, ?_⟩
    · cases a0 with
      | none => rfl
      | some c => simpa using hs 0 c rfl
    · cases a1 with
      | none => rfl
      | some c => simpa using hs 1 c rfl
    · cases a2 with
      | none => rfl
      | some c => simpa using hs 2 c rfl
    · cases a3 with
      | none => rfl
      | some c => simpa using hs 3 c rfl

theorem treesAt_setTree {t c c' : QuadTree} {i : Int}
    (hc : t.treesAt i = some (some c)) (j : Int) :
    (t.setTree i c').treesAt j = if j = i then some (some c') else t.treesAt j := by
  obtain ⟨a0, a1, a2, a3, r, b, l, m, ml⟩ := t
  rcases treesAt_some_cases hc with ⟨rfl, rfl⟩ | ⟨rfl, rfl⟩ | ⟨rfl, rfl⟩ | ⟨rfl, rfl⟩ <;>
    simp only [setTree, treesAt, t0, t1, t2, t3, reduceIte, Int.reduceEq] <;>
    split_ifs <;> first | rfl | omega

theorem rescan_placed (ins : QuadTree → Rect → Option Outcome) (nRect : Rect)
    (hk : ∀ c r o, ins c r = some o → o.Rel Kept c)
    (hitems : ∀ c r c', c.allOrNone = true → ins c r = some (.returned c') →
      c'.allItems.Perm (r :: c.allItems))
    (hpl : ∀ c r c', c.allOrNone = true → c.placedInv = true →
      ins c r = some (.returned c') → c'.placedInv = true) :
    ∀ (rest kept : List Rect) (t t' : QuadTree), t.allOrNone = true →
      (∀ i c, t.treesAt i = some (some c) →
          (∀ x ∈ c.allItems, findRectanglePosition t.bounds x = i
            ∨ findRectanglePosition t.bounds x = -1)
          ∧ c.placedInv = true) →
      (∀ x ∈ kept, findRectanglePosition t.bounds x = -1) →
      (∀ x ∈ rest, findRectanglePosition t.bounds x = findRectanglePosition t.bounds nRect
          ∨ findRectanglePosition t.bounds x = -1) →
      rescan ins nRect t kept rest = some (.returned t') → t'.placedInv = true := by
  intro rest
  induction rest with
  | nil =>
    intro kept t t' _ hs hkept _ h
    simp only [rescan, Option.some.injEq, Outcome.returned.injEq] at h
    subst h
    rw [placedInv_iff]
    simpa using ⟨hkept, hs⟩
  | cons r rest ih =>
    intro kept t t' ht hs hkept hrest h
    by_cases hidx : findRectanglePosition t.bounds nRect = -1
    · simp only [rescan, hidx, if_true] at h
      refine ih _ t t' ht hs ?_ ?_ h
      · intro x hx
        rcases List.mem_append.mp hx with h1 | h1
        · exact hkept x h1
        · have hxr : x = r := by simpa using h1
          subst hxr
          rcases hrest x (List.mem_cons_self _ _) with h2 | h2
          · exact h2.trans hidx
          · exact h2
      · intro x hx
        exact hrest x (List.mem_cons_of_mem _ hx)
    · simp only [rescan, hidx, if_false] at h
      cases hc : t.treesAt (findRectanglePosition t.bounds nRect) with
      | none => simp [hc] at h
      | some s =>
        cases s with
        | none => simp [hc] at h
        | some c =>
          simp only [hc] at h
          cases hi : ins c r with
          | none => simp [hi] at h
          | some o' =>
            simp only [hi] at h
            cases o' with
            | threw c' => simp at h
            | undefined => simp at h
            | returned c' =>
              have hcA := allOrNone_child hc ht
              have hcs := hs _ c hc
              have hp := hitems c r c' hcA hi
              have hcp := hpl c r c' hcA hcs.2 hi
              have hkept2 := kept_setTree t _ c c' hc (hk c r _ hi)
              refine ih kept _ t' (hkept2.2.2.2.2.1 ht) ?_ ?_ ?_ h
              · intro j d hd
                rw [treesAt_setTree hc] at hd
                rw [bounds_setTree]
                split_ifs at hd with hj
                · simp only [Option.some.injEq] at hd
                  subst hd
                  subst hj
                  refine ⟨?_, hcp⟩
                  intro x hx
                  rcases List.mem_cons.mp (hp.mem_iff.mp hx) with h1 | h1
                  · subst h1
                    exact hrest x (List.mem_cons_self _ _)
                  · exact hcs.1 x h1
                · exact hs j d hd
              · simpa using hkept
              · intro x hx
                simpa using hrest x (List.mem_cons_of_mem _ hx)

theorem placedInv_split {t : QuadTree}
    (hr : ∀ i c, t.split.treesAt i = some (some c) → c.allItems = [] ∧ c.placedInv = true) :
    ∀ i c, t.split.treesAt i = some (some c) →
      (∀ x ∈ c.allItems, findRectanglePosition t.split.bounds x = i
        ∨ findRectanglePosition t.split.bounds x = -1)
      ∧ c.placedInv = true := by
  intro i c hc
  obtain ⟨h1, h2⟩ := hr i c hc
  refine ⟨?_, h2⟩
  rw [h1]
  intro x hx
  simp at hx

theorem split_children_fresh (t : QuadTree) :
    ∀ i c, t.split.treesAt i = some (some c) → c.allItems = [] ∧ c.placedInv = true := by
  obtain ⟨a0, a1, a2, a3, r, b, l, m, ml⟩ := t
  intro i c hc
  simp only [split] at hc
  rcases treesAt_some_cases hc with ⟨_, h⟩ | ⟨_, h⟩ | ⟨_, h⟩ | ⟨_, h⟩ <;>
    simp only [Option.some.injEq] at h <;> subst h <;> exact ⟨rfl, rfl⟩

theorem bounds_split (t : QuadTree) : t.split.bounds = t.bounds := by
  cases t; rfl

theorem insertAux_placed : ∀ (fuel : Nat) (t : QuadTree) (nRect : Rect) (t' : QuadTree),
    t.allOrNone = true → t.placedInv = true →
    insertAux fuel t nRect = some (.returned t') → t'.placedInv = true := by
  intro fuel
  induction fuel with
  | zero => intro t nRect t' _ _ h; simp [insertAux] at h
  | succ fuel ih =>
    intro t nRect t' ht hp h
    obtain ⟨hrects, hslots⟩ := (placedInv_iff t).mp hp
    simp only [insertAux] at h
    split_ifs at h with h1 h2
    · simp at h
    · have hA : ((t.withRects (t.rects ++ [nRect])).split).allOrNone = true :=
        (kept_trans _ _ _ (kept_withRects t _)
          (kept_split _ (by simpa using h2.2.2) h2.2.1)).2.2.2.2.1 ht
      refine rescan_placed (insertAux fuel) nRect
        (fun c r o ho => insertAux_rel kept_stable fuel c r o ho)
        (fun c r c' hc ho => insertAux_items fuel c r c' hc ho)
        (fun c r c' hc hcp ho => ih c r c' hc hcp ho) _ _ _ t' hA
        (placedInv_split (split_children_fresh _)) (by simp) ?_ h
      intro x hx
      rw [rects_split, rects_withRects] at hx
      rw [bounds_split, bounds_withRects]
      rcases List.mem_append.mp hx with h3 | h3
      · exact Or.inr (hrects x h3)
      · have : x = nRect := by simpa using h3
        exact Or.inl (this ▸ rfl)
    · have hA : (t.withRects (t.rects ++ [nRect])).allOrNone = true := by simpa using ht
      refine rescan_placed (insertAux fuel) nRect
        (fun c r o ho => insertAux_rel kept_stable fuel c r o ho)
        (fun c r c' hc ho => insertAux_items fuel c r c' hc ho)
        (fun c r c' hc hcp ho => ih c r c' hc hcp ho) _ _ _ t' hA
        (by simpa using hslots) (by simp) ?_ h
      intro x hx
      rw [rects_withRects] at hx
      rw [bounds_withRects]
      rcases List.mem_append.mp hx with h3 | h3
      · exact Or.inr (hrects x h3)
      · have : x = nRect := by simpa using h3
        exact Or.inl (this ▸ rfl)

theorem built_reachable {t : QuadTree} (h : Built t) : Reachable t := by
  induction h with
  | construct b m ml => exact Reachable.construct b m ml
  | insert nRect _ hins ih => exact Reachable.insert nRect ih hins
  | clear _ ih => exact Reachable.clear ih

theorem placedInv_clear (t : QuadTree) : t.clear.placedInv = true := by
  cases t; rfl

theorem built_placed {t : QuadTree} (h : Built t) : t.placedInv = true := by
  induction h with
  | construct b m ml => rfl
  | insert nRect hb hins ih =>
    exact insertAux_placed _ _ nRect _ (reachable_inv (built_reachable hb)).1 ih hins
  | clear _ _ => exact placedInv_clear _

theorem isNode_placed {t n : QuadTree} (hn : IsNode t n) (h : t.placedInv = true) :
    n.placedInv = true := by
  induction hn with
  | root => exact h
  | child _ hc ih => exact (((placedInv_iff _).mp ih).2 _ _ hc).2

/-! ### C16 -/

/-- As long as every call returns, the placement invariant holds: in every tree that a
sequence of returning `insert` calls (and `clear` calls) makes of a constructed root,
every node, split or not, stores directly only items that `findRectanglePosition` maps
to no quadrant of it, and every item stored below one of its children that maps to a
quadrant of the node is stored below the child of that quadrant. -/
theorem built_placement_invariant (t : QuadTree) (h : Built t) (n : QuadTree)
    (hn : IsNode t n) :
    (∀ x ∈ n.rects, findRectanglePosition n.bounds x = -1)
      ∧ ∀ i c x, n.treesAt i = some (some c) → x ∈ c.allItems →
          findRectanglePosition n.bounds x ≠ -1 → findRectanglePosition n.bounds x = i := by
  obtain ⟨h1, h2⟩ := (placedInv_iff n).mp (isNode_placed hn (built_placed h))
  refine ⟨h1, ?_⟩
  intro i c x hc hx hne
  rcases (h2 i c hc).1 x hx with h3 | h3
  · exact h3
  · exact absurd h3 hne

/-- The invariant of returning calls at the root `(0,0,100,100)`, `maxRect = 1`, after
the returning inserts of `(49,10,2,2)` and `(5,5,1,1)`, which leave both items below
child 1. -/
theorem built_placement_invariant_witness :
    ∃ t1 t c, (construct ⟨0, 0, 100, 100⟩ 1 20).insert ⟨49, 10, 2, 2⟩ = some (.returned t1)
      ∧ t1.insert ⟨5, 5, 1, 1⟩ = some (.returned t)
      ∧ t.hasChildren = true
      ∧ t.t1 = some c
      ∧ c.allItems = [⟨49, 10, 2, 2⟩, ⟨5, 5, 1, 1⟩]
      ∧ (∀ x ∈ t.rects, findRectanglePosition t.bounds x = -1)
      ∧ ∀ i c x, t.treesAt i = some (some c) → x ∈ c.allItems →
          findRectanglePosition t.bounds x ≠ -1 → findRectanglePosition t.bounds x = i := by
  refine ⟨_, _, _, rfl, rfl, rfl, rfl, rfl, ?_⟩
  exact built_placement_invariant _
    (Built.insert ⟨5, 5, 1, 1⟩
      (Built.insert ⟨49, 10, 2, 2⟩ (Built.construct ⟨0, 0, 100, 100⟩ 1 20) rfl) rfl)
    _ IsNode.root

/-- C16, the code at the failing input: on the root `(0,0,100,100)` with `maxRect = 1`
the inserts of `(49,10,2,2)` and `(5,5,1,1)` return and leave the root and its child 1
split. The insert of `(24,5,2,2)` maps to quadrant 1 of the root, is appended to the
root's own collection (line 129), and is passed to child 1, where it maps to no
quadrant: child 1 has children, so line 125 throws `std::out_of_range`. The tree the
caller is left with is reachable, its root has children and stores `(24,5,2,2)`, which
maps to quadrant 1 of the root. -/
theorem caught_throw_leaves_item_with_quadrant :
    ∃ t1 t2 t',
      (construct ⟨0, 0, 100, 100⟩ 1 20).insert ⟨49, 10, 2, 2⟩ = some (.returned t1)
      ∧ t1.insert ⟨5, 5, 1, 1⟩ = some (.returned t2)
      ∧ t2.insert ⟨24, 5, 2, 2⟩ = some (.threw t')
      ∧ Reachable t'
      ∧ t'.hasChildren = true
      ∧ t'.rects = [⟨24, 5, 2, 2⟩]
      ∧ findRectanglePosition t'.bounds ⟨24, 5, 2, 2⟩ = 1 := by
  refine ⟨_, _, _, rfl, rfl, rfl, ?_, rfl, rfl, by decide⟩
  exact Reachable.insertThrew ⟨24, 5, 2, 2⟩
    (Reachable.insert ⟨5, 5, 1, 1⟩
      (Reachable.insert ⟨49, 10, 2, 2⟩ (Reachable.construct ⟨0, 0, 100, 100⟩ 1 20) rfl) rfl)
    rfl

end QuadTree
